import Mathlib

/-!
# Schema-less protobuf message tree: decoder, encoder and accessors

A shallow embedding of `protobuf.go` (package `protobuf`): the `Payload`
variants, `Record`, `Message`, the encoder `Message.Marshal`, the heuristic
decoder `Message.Unmarshal` with its speculative helper `unmarshal`, and the
typed accessors.

Conventions of the embedding:
* a Go `[]byte` is a `List Byte` with `Byte = Fin 256`;
* Go unsigned machine integers are `Nat`, Go signed ones are `Int`;
* `m.Unmarshal(data)` mutates `*m` and returns an `error`; the embedding
  returns the pair (contents of `*m` after the call, returned error);
* the loop of `Unmarshal` and its recursion through `unmarshal` are driven by
  an explicit fuel counter; `none` means the fuel ran out, and
  `UnmarshalFuel_total` shows that `len(data)` units always suffice.
-/

namespace Protobuf

/-- One octet of a Go byte slice. -/
abbrev Byte := Fin 256

/-- Go conversion `byte(v)` of an unsigned integer: keeps the low eight bits. -/
def byte (v : Nat) : Byte := ⟨v % 256, Nat.mod_lt _ (by decide)⟩

/-! ## Wire codec (`google.golang.org/protobuf/encoding/protowire`) -/

namespace protowire

/-- Modelled from the spec: the wire codec is an external dependency, absent
from the sources; `protowire.Number` is the library's `int32` field number. -/
abbrev Number := Int

/-- Modelled from the spec: external wire type constant `protowire.VarintType`
(the library's `protowire.Type` is an `int8`; wire types are naturals here). -/
def VarintType : Nat := 0

/-- Modelled from the spec: external wire type constant `protowire.Fixed64Type`. -/
def Fixed64Type : Nat := 1

/-- Modelled from the spec: external wire type constant `protowire.BytesType`. -/
def BytesType : Nat := 2

/-- Modelled from the spec: external wire type constant `protowire.StartGroupType`. -/
def StartGroupType : Nat := 3

/-- Modelled from the spec: external wire type constant `protowire.EndGroupType`. -/
def EndGroupType : Nat := 4

/-- Modelled from the spec: external wire type constant `protowire.Fixed32Type`. -/
def Fixed32Type : Nat := 5

/-- Modelled from the spec: external constant `math.MaxInt32`, the largest
field number `protowire.DecodeTag` accepts. -/
def MaxInt32 : Nat := 2147483647

/-- Modelled from the spec: external constant `protowire.MinValidNumber`. -/
def MinValidNumber : Int := 1

/-- Modelled from the spec: external error code for truncated input. -/
def errCodeTruncated : Int := -1

/-- Modelled from the spec: external error code for an invalid field number. -/
def errCodeFieldNumber : Int := -2

/-- Modelled from the spec: external error code for a varint overflow. -/
def errCodeOverflow : Int := -3

/-- Modelled from the spec: external error code for a reserved wire type. -/
def errCodeReserved : Int := -4

/-- Modelled from the spec: external error code for a stray end-group tag. -/
def errCodeEndGroup : Int := -5

end protowire

/-- The Go `error` values the decoder can return: the ones the external
`protowire.ParseError` maps the negative length codes to, and the one built by
`errors.New`. -/
inductive Error where
  | ErrUnexpectedEOF
  | errFieldNumber
  | errOverflow
  | errReserved
  | errEndGroup
  | errParse
  | New (msg : String)
  deriving DecidableEq, Repr

namespace protowire

/-- Modelled from the spec: external `protowire.ParseError`; `none` is Go's `nil`. -/
def ParseError (n : Int) : Option Error :=
  if n ≥ 0 then none
  else if n = errCodeTruncated then some Error.ErrUnexpectedEOF
  else if n = errCodeFieldNumber then some Error.errFieldNumber
  else if n = errCodeOverflow then some Error.errOverflow
  else if n = errCodeReserved then some Error.errReserved
  else if n = errCodeEndGroup then some Error.errEndGroup
  else some Error.errParse

/-- Modelled from the spec: the bytes the external `protowire.AppendVarint`
writes for `v`, where `k` is the number of bytes that may still be followed by
another one. The library unrolls this into a ten-way switch whose last case
ends in the literal byte `1`. -/
def appendVarintGo : Nat → Nat → List Byte
  | 0, _ => [1]
  | k + 1, v =>
    if v < 128 then [byte v]
    else byte (v % 128 + 128) :: appendVarintGo k (v / 128)

/-- Modelled from the spec: external `protowire.AppendVarint` on a `uint64`. -/
def AppendVarint (b : List Byte) (v : Nat) : List Byte :=
  b ++ appendVarintGo 9 v

/-- Modelled from the spec: the walk of the external `protowire.ConsumeVarint`
over the bytes of a varint, where `k` is the number of bytes that may still
carry a continuation bit (the library unrolls it ten times). The result is the
value and the number of bytes read, or a negative error code. -/
def consumeVarintGo : Nat → List Byte → Nat × Int
  | _, [] => (0, errCodeTruncated)
  | 0, y :: _ => if y.val < 2 then (y.val, 1) else (0, errCodeOverflow)
  | k + 1, y :: rest =>
    if y.val < 128 then (y.val, 1)
    else
      match consumeVarintGo k rest with
      | (v, n) => if n < 0 then (0, n) else ((y.val - 128) + 128 * v, n + 1)

/-- Modelled from the spec: external `protowire.ConsumeVarint`; at most ten
bytes are read and the tenth may only be `0` or `1`. -/
def ConsumeVarint (b : List Byte) : Nat × Int :=
  consumeVarintGo 9 b

/-- Modelled from the spec: external `protowire.EncodeTag`,
`uint64(num)<<3 | uint64(typ&7)`. -/
def EncodeTag (num : Int) (typ : Nat) : Nat :=
  ((num % 2 ^ 64).toNat * 8 % 2 ^ 64) ||| (typ % 8)

/-- Modelled from the spec: external `protowire.DecodeTag`. -/
def DecodeTag (x : Nat) : Int × Nat :=
  if x / 8 > MaxInt32 then (-1, 0) else ((x / 8 : Nat), x % 8)

/-- Modelled from the spec: external `protowire.AppendTag`. -/
def AppendTag (b : List Byte) (num : Int) (typ : Nat) : List Byte :=
  AppendVarint b (EncodeTag num typ)

/-- Modelled from the spec: external `protowire.ConsumeTag`. -/
def ConsumeTag (b : List Byte) : Int × Nat × Int :=
  match ConsumeVarint b with
  | (v, n) =>
    if n < 0 then (0, 0, n)
    else
      match DecodeTag v with
      | (num, typ) =>
        if num < MinValidNumber then (0, 0, errCodeFieldNumber)
        else (num, typ, n)

/-- Modelled from the spec: external `protowire.AppendFixed32`. -/
def AppendFixed32 (b : List Byte) (v : Nat) : List Byte :=
  b ++ [byte v, byte (v / 2 ^ 8), byte (v / 2 ^ 16), byte (v / 2 ^ 24)]

/-- Modelled from the spec: external `protowire.ConsumeFixed32`. -/
def ConsumeFixed32 (b : List Byte) : Nat × Int :=
  match b with
  | b0 :: b1 :: b2 :: b3 :: _ =>
    (b0.val + b1.val * 2 ^ 8 + b2.val * 2 ^ 16 + b3.val * 2 ^ 24, 4)
  | _ => (0, errCodeTruncated)

/-- Modelled from the spec: external `protowire.AppendFixed64`. -/
def AppendFixed64 (b : List Byte) (v : Nat) : List Byte :=
  b ++ [byte v, byte (v / 2 ^ 8), byte (v / 2 ^ 16), byte (v / 2 ^ 24),
        byte (v / 2 ^ 32), byte (v / 2 ^ 40), byte (v / 2 ^ 48), byte (v / 2 ^ 56)]

/-- Modelled from the spec: external `protowire.ConsumeFixed64`. -/
def ConsumeFixed64 (b : List Byte) : Nat × Int :=
  match b with
  | b0 :: b1 :: b2 :: b3 :: b4 :: b5 :: b6 :: b7 :: _ =>
    (b0.val + b1.val * 2 ^ 8 + b2.val * 2 ^ 16 + b3.val * 2 ^ 24
      + b4.val * 2 ^ 32 + b5.val * 2 ^ 40 + b6.val * 2 ^ 48 + b7.val * 2 ^ 56, 8)
  | _ => (0, errCodeTruncated)

/-- Modelled from the spec: external `protowire.AppendBytes`; `uint64(len(v))`
is exact because a Go slice length is a non-negative `int`. -/
def AppendBytes (b : List Byte) (v : List Byte) : List Byte :=
  AppendVarint b v.length ++ v

/-- Modelled from the spec: external `protowire.ConsumeBytes`. -/
def ConsumeBytes (b : List Byte) : List Byte × Int :=
  match ConsumeVarint b with
  | (m, n) =>
    if n < 0 then ([], n)
    else if m > (b.drop n.toNat).length then ([], errCodeTruncated)
    else ((b.drop n.toNat).take m, n + (m : Int))

end protowire

open protowire

/-! ## Data model -/

/-- Go `type Number = protowire.Number`. -/
abbrev Number := protowire.Number

mutual
/-- The implementations of the Go interface `Payload`: `Varint` (`uint64`),
`I32` (`uint32`), `I64` (`uint64`), `Bytes` (`[]byte`), `*LenPrefix`
(a struct of `Bytes` and `Message`) and `Message` (`[]Record`). -/
inductive Payload where
  | Varint (v : Nat)
  | I32 (v : Nat)
  | I64 (v : Nat)
  | Bytes (b : List Byte)
  | LenPrefix (Bytes : List Byte) (Message : List Record)
  | Message (m : List Record)
/-- The Go struct `Record{Number, Payload}`. -/
inductive Record where
  | mk (Number : Number) (Payload : Payload)
end

/-- Go `type Message []Record`. -/
abbrev Message := List Record

/-- The field `Number` of a `Record`. -/
def Record.Number : Record → Number
  | .mk n _ => n

/-- The field `Payload` of a `Record`. -/
def Record.Payload : Record → Payload
  | .mk _ p => p

/-! ## Encoder -/

/-- Go `func (b Bytes) Append(data []byte, num Number) []byte`. -/
def Bytes.Append (b : List Byte) (data : List Byte) (num : Number) : List Byte :=
  AppendBytes (AppendTag data num BytesType) b

/-- Go `func (i I32) Append(data []byte, num Number) []byte`. -/
def I32.Append (i : Nat) (data : List Byte) (num : Number) : List Byte :=
  AppendFixed32 (AppendTag data num Fixed32Type) i

/-- Go `func (i I64) Append(data []byte, num Number) []byte`. -/
def I64.Append (i : Nat) (data : List Byte) (num : Number) : List Byte :=
  AppendFixed64 (AppendTag data num Fixed64Type) i

/-- Go `func (v Varint) Append(data []byte, num Number) []byte`. -/
def Varint.Append (v : Nat) (data : List Byte) (num : Number) : List Byte :=
  AppendVarint (AppendTag data num VarintType) v

/-- Go `func (p *LenPrefix) Append(data []byte, num Number) []byte`: only the field
`Bytes` of the struct is read. -/
def LenPrefix.Append (pBytes : List Byte) (_pMessage : Message) (data : List Byte)
    (num : Number) : List Byte :=
  AppendBytes (AppendTag data num BytesType) pBytes

mutual
/-- The interface call `r.Payload.Append(data, r.Number)`, dispatched on the
dynamic type of the payload. The `Message` case is the body of
`Message.Append`, whose `m.Marshal()` is the loop started on an empty buffer. -/
def Payload.Append : Payload → List Byte → Number → List Byte
  | .Varint v, data, num => Varint.Append v data num
  | .I32 v, data, num => I32.Append v data num
  | .I64 v, data, num => I64.Append v data num
  | .Bytes b, data, num => Bytes.Append b data num
  | .LenPrefix b m, data, num => LenPrefix.Append b m data num
  | .Message m, data, num =>
    AppendBytes (AppendTag data num BytesType) (marshalLoop m [])
/-- The loop of `Message.Marshal`: `for _, r := range m` threading `data`. -/
def marshalLoop : List Record → List Byte → List Byte
  | [], data => data
  | .mk num p :: rest, data => marshalLoop rest (Payload.Append p data num)
end

/-- Go `func (m Message) Marshal() []byte`. -/
def Message.Marshal (m : Message) : List Byte :=
  marshalLoop m []

/-- Go `func (m Message) Append(data []byte, num Number) []byte`. -/
def Message.Append (m : Message) (data : List Byte) (num : Number) : List Byte :=
  AppendBytes (AppendTag data num BytesType) (Message.Marshal m)

/-! ## Decoder -/

/-- The helper `unmarshal(data []byte) Payload`, with the call `m.Unmarshal(data)`
on a fresh `var m Message` passed in as `dec`. -/
def unmarshalWith (dec : List Byte → Option (Message × Option Error))
    (data : List Byte) : Option Payload :=
  if data.length ≥ 1 then
    match dec data with
    | none => none
    | some (m, none) => some (Payload.LenPrefix data m)
    | some (_, some _) => some (Payload.Bytes data)
  else some (Payload.Bytes data)

/-- Go `func (m *Message) Unmarshal(data []byte) error` with a fuel counter for the
loop and the nested speculative calls. The result is the content of `*m` when
the call returns together with the returned error (`none` for `nil`). -/
def UnmarshalFuel : Nat → Message → List Byte → Option (Message × Option Error)
  | 0, m, data => if data.length ≥ 1 then none else some (m, none)
  | fuel + 1, m, data =>
    if data.length ≥ 1 then
      match ConsumeTag data with
      | (num, wire_type, size) =>
        match ParseError size with
        | some err => some (m, some err)
        | none =>
          let data := data.drop size.toNat
          if wire_type = BytesType then
            match ConsumeBytes data with
            | (value, size) =>
              match ParseError size with
              | some err => some (m, some err)
              | none =>
                match unmarshalWith (UnmarshalFuel fuel []) value with
                | none => none
                | some payload =>
                  UnmarshalFuel fuel (m ++ [Record.mk num payload]) (data.drop size.toNat)
          else if wire_type = Fixed32Type then
            match ConsumeFixed32 data with
            | (value, size) =>
              match ParseError size with
              | some err => some (m, some err)
              | none =>
                UnmarshalFuel fuel (m ++ [Record.mk num (Payload.I32 value)])
                  (data.drop size.toNat)
          else if wire_type = Fixed64Type then
            match ConsumeFixed64 data with
            | (value, size) =>
              match ParseError size with
              | some err => some (m, some err)
              | none =>
                UnmarshalFuel fuel (m ++ [Record.mk num (Payload.I64 value)])
                  (data.drop size.toNat)
          else if wire_type = VarintType then
            match ConsumeVarint data with
            | (value, size) =>
              match ParseError size with
              | some err => some (m, some err)
              | none =>
                UnmarshalFuel fuel (m ++ [Record.mk num (Payload.Varint value)])
                  (data.drop size.toNat)
          else some (m, some (Error.New "cannot parse reserved wire type"))
    else some (m, none)

/-- Go `func (m *Message) Unmarshal(data []byte) error`: `len(data)` units of fuel. -/
def Message.Unmarshal (m : Message) (data : List Byte) : Option (Message × Option Error) :=
  UnmarshalFuel data.length m data

/-- Go `func unmarshal(data []byte) Payload`. -/
def unmarshal (data : List Byte) : Option Payload :=
  unmarshalWith (Message.Unmarshal []) data

/-! ## One loop iteration, without the speculative call

The body of the loop of `Unmarshal` up to the point where a payload is built,
as a function of its own, so that the loop can be reasoned about one record at
a time (`UnmarshalFuel_succ` relates it to the decoder). -/

/-- What the wire codec returned for the payload of one record, before the
decoder turns it into a `Payload`. -/
inductive Raw where
  | varint (v : Nat)
  | i32 (v : Nat)
  | i64 (v : Nat)
  | bytes (value : List Byte)

/-- The payload read of one loop iteration of `Unmarshal`, the `switch wire_type`
without the construction of the payload: the error the iteration returns, or
the value read and the rest of `data`. -/
def rawPayload (wire_type : Nat) (data : List Byte) : Except Error (Raw × List Byte) :=
  if wire_type = BytesType then
    match ConsumeBytes data with
    | (value, size) =>
      match ParseError size with
      | some err => Except.error err
      | none => Except.ok (Raw.bytes value, data.drop size.toNat)
  else if wire_type = Fixed32Type then
    match ConsumeFixed32 data with
    | (value, size) =>
      match ParseError size with
      | some err => Except.error err
      | none => Except.ok (Raw.i32 value, data.drop size.toNat)
  else if wire_type = Fixed64Type then
    match ConsumeFixed64 data with
    | (value, size) =>
      match ParseError size with
      | some err => Except.error err
      | none => Except.ok (Raw.i64 value, data.drop size.toNat)
  else if wire_type = VarintType then
    match ConsumeVarint data with
    | (value, size) =>
      match ParseError size with
      | some err => Except.error err
      | none => Except.ok (Raw.varint value, data.drop size.toNat)
  else Except.error (Error.New "cannot parse reserved wire type")

/-- The tag and payload reads of one loop iteration of `Unmarshal`: the error
the iteration returns, or the field number, the value read and the rest of
`data`. -/
def rawRecord (data : List Byte) : Except Error (Int × Raw × List Byte) :=
  match ConsumeTag data with
  | (num, wire_type, size) =>
    match ParseError size with
    | some err => Except.error err
    | none =>
      match rawPayload wire_type (data.drop size.toNat) with
      | Except.error err => Except.error err
      | Except.ok (raw, rest) => Except.ok (num, raw, rest)

/-- The wire type under which a value was read. -/
def Raw.wireType : Raw → Nat
  | Raw.varint _ => VarintType
  | Raw.i32 _ => Fixed32Type
  | Raw.i64 _ => Fixed64Type
  | Raw.bytes _ => BytesType

/-- The bytes the wire codec writes for a value, after the tag. -/
def Raw.encPayload : Raw → List Byte
  | Raw.varint v => AppendVarint [] v
  | Raw.i32 v => AppendFixed32 [] v
  | Raw.i64 v => AppendFixed64 [] v
  | Raw.bytes value => AppendBytes [] value

/-- The bytes the wire codec writes for a record: tag, then value. -/
def Raw.enc (num : Int) (raw : Raw) : List Byte :=
  AppendTag [] num raw.wireType ++ raw.encPayload

/-- The value fits the Go type it is stored in: `uint64`, `uint32`, `uint64`,
and a slice whose length fits a `uint64`. -/
def Raw.inRange : Raw → Prop
  | Raw.varint v => v < 2 ^ 64
  | Raw.i32 v => v < 2 ^ 32
  | Raw.i64 v => v < 2 ^ 64
  | Raw.bytes value => value.length < 2 ^ 64

/-- The varint at the head of `b` takes as many bytes as `AppendVarint` writes
for its value. -/
def minimalVarint (b : List Byte) : Bool :=
  match ConsumeVarint b with
  | (v, n) => decide (n = ((AppendVarint [] v).length : Int))

/-- The varint of a payload (the value of a varint field, the length prefix of
a length-delimited one) is minimal; fixed-width payloads hold no varint. -/
def minimalPayload (wire_type : Nat) (data : List Byte) : Bool :=
  if wire_type = BytesType ∨ wire_type = VarintType then minimalVarint data else true

/-- The tag of the first record of `data` and the varint of its payload are
minimal. -/
def minimalRecord (data : List Byte) : Bool :=
  match ConsumeTag data with
  | (_, wire_type, size) =>
    minimalVarint data && minimalPayload wire_type (data.drop size.toNat)

/-- Every top-level record of `data` that the decoder reads has a minimal tag
and a minimal payload varint (walk with a fuel counter). -/
def canonicalFuel : Nat → List Byte → Bool
  | 0, _ => true
  | fuel + 1, data =>
    if data.length ≥ 1 then
      match rawRecord data with
      | Except.error _ => true
      | Except.ok (_, _, rest) => minimalRecord data && canonicalFuel fuel rest
    else true

/-- The top-level tags, varint values and length prefixes of `data` are
written the way `protowire.AppendVarint` writes them: none is padded with
redundant continuation bytes. -/
def Canonical (data : List Byte) : Prop :=
  canonicalFuel data.length data = true

instance (data : List Byte) : Decidable (Canonical data) :=
  inferInstanceAs (Decidable (canonicalFuel data.length data = true))

/-- The payload the loop builds from a value read: `unmarshal(value)` for a
length-delimited span, the scalar conversion otherwise. -/
def classifyWith (dec : List Byte → Option (Message × Option Error)) : Raw → Option Payload
  | Raw.varint v => some (Payload.Varint v)
  | Raw.i32 v => some (Payload.I32 v)
  | Raw.i64 v => some (Payload.I64 v)
  | Raw.bytes value => unmarshalWith dec value

/-! ## Reference encoder

The encoding of a record as the specification words it, to compare
`Message.Marshal` with. -/

/-- The tag of field `n` with wire type `t`, as the wire codec writes it. -/
def tag (n : Int) (t : Nat) : List Byte := AppendTag [] n t

/-- The varint of `v`, as the wire codec writes it. -/
def varint (v : Nat) : List Byte := AppendVarint [] v

/-- The `k` low bytes of `v`, least significant first. -/
def littleEndian : Nat → Nat → List Byte
  | 0, _ => []
  | k + 1, v => byte v :: littleEndian k (v / 256)

/-- Reference encoding of one record, by payload kind: tag, then the scalar, or
the length and the stored bytes; a nested message is length-prefixed
`Marshal` output and a `LenPrefix` emits its raw bytes. -/
def encRecord : Record → List Byte
  | Record.mk n (Payload.Varint v) => tag n 0 ++ varint v
  | Record.mk n (Payload.I64 v) => tag n 1 ++ littleEndian 8 v
  | Record.mk n (Payload.I32 v) => tag n 5 ++ littleEndian 4 v
  | Record.mk n (Payload.Bytes b) => tag n 2 ++ varint b.length ++ b
  | Record.mk n (Payload.LenPrefix raw _) => tag n 2 ++ varint raw.length ++ raw
  | Record.mk n (Payload.Message s) =>
    tag n 2 ++ varint (Message.Marshal s).length ++ Message.Marshal s

/-- Reference encoder: the concatenation, in record order, of the record
encodings. -/
def encMessage : Message → List Byte
  | [] => []
  | r :: rest => encRecord r ++ encMessage rest

/-! ## Accessors -/

namespace iter

/-- Go `iter.Seq[V]`, a `func(yield func(V) bool)`. The consumer keeps a state
of type `σ` between the calls of `yield`; `yield` maps the state and the value
pushed to the new state and the boolean it returns. Running the sequence from
a state gives the state after the last call. -/
def Seq (V : Type) : Type 1 := (σ : Type) → (σ → V → σ × Bool) → σ → σ

/-- All the values a sequence pushes to a consumer that never stops it. -/
def Seq.toList {V : Type} (q : Seq V) : List V :=
  q (List V) (fun acc v => (acc ++ [v], true)) []

end iter

/-- The `for _, record1 := range m` loop of `Message.Get`. -/
def Message.GetLoop (num : Number) {σ : Type} (yield : σ → Message → σ × Bool) :
    List Record → σ → σ
  | [], s => s
  | record1 :: rest, s =>
    if record1.Number = num then
      match record1.Payload with
      | Payload.Message value =>
        match yield s value with
        | (s', true) => Message.GetLoop num yield rest s'
        | (s', false) => s'
      | Payload.LenPrefix _ valueMessage =>
        match yield s valueMessage with
        | (s', true) => Message.GetLoop num yield rest s'
        | (s', false) => s'
      | _ => Message.GetLoop num yield rest s
    else Message.GetLoop num yield rest s

/-- Go `func (m Message) Get(num Number) iter.Seq[Message]`. -/
def Message.Get (m : Message) (num : Number) : iter.Seq Message :=
  fun _ yield s => Message.GetLoop num yield m s

/-- The `for _, record1 := range m` loop of `Message.GetBytes`. -/
def Message.GetBytesLoop (num : Number) {σ : Type} (yield : σ → List Byte → σ × Bool) :
    List Record → σ → σ
  | [], s => s
  | record1 :: rest, s =>
    if record1.Number = num then
      match record1.Payload with
      | Payload.Bytes value =>
        match yield s value with
        | (s', true) => Message.GetBytesLoop num yield rest s'
        | (s', false) => s'
      | Payload.LenPrefix valueBytes _ =>
        match yield s valueBytes with
        | (s', true) => Message.GetBytesLoop num yield rest s'
        | (s', false) => s'
      | _ => Message.GetBytesLoop num yield rest s
    else Message.GetBytesLoop num yield rest s

/-- Go `func (m Message) GetBytes(num Number) iter.Seq[Bytes]`. -/
def Message.GetBytes (m : Message) (num : Number) : iter.Seq (List Byte) :=
  fun _ yield s => Message.GetBytesLoop num yield m s

/-- The type assertion `record1.Payload.(Varint)`: value and `ok`. -/
def Payload.assertVarint : Payload → Option Nat
  | Payload.Varint v => some v
  | _ => none

/-- The type assertion `record1.Payload.(I32)`. -/
def Payload.assertI32 : Payload → Option Nat
  | Payload.I32 v => some v
  | _ => none

/-- The type assertion `record1.Payload.(I64)`. -/
def Payload.assertI64 : Payload → Option Nat
  | Payload.I64 v => some v
  | _ => none

/-- The `for _, record1 := range m` loop of the generic `get[P]`, with the type
assertion `record1.Payload.(P)` passed in as `assertP`. -/
def getLoop {P : Type} (assertP : Payload → Option P) (num : Number) {σ : Type}
    (yield : σ → P → σ × Bool) : List Record → σ → σ
  | [], s => s
  | record1 :: rest, s =>
    if record1.Number = num then
      match assertP record1.Payload with
      | some value =>
        match yield s value with
        | (s', true) => getLoop assertP num yield rest s'
        | (s', false) => s'
      | none => getLoop assertP num yield rest s
    else getLoop assertP num yield rest s

/-- Go `func get[P Payload](m Message, num Number) iter.Seq[P]`. -/
def get {P : Type} (assertP : Payload → Option P) (m : Message) (num : Number) : iter.Seq P :=
  fun _ yield s => getLoop assertP num yield m s

/-- Go `func (m Message) GetVarint(num Number) iter.Seq[Varint]`. -/
def Message.GetVarint (m : Message) (num : Number) : iter.Seq Nat :=
  get Payload.assertVarint m num

/-- Go `func (m Message) GetI64(num Number) iter.Seq[I64]`. -/
def Message.GetI64 (m : Message) (num : Number) : iter.Seq Nat :=
  get Payload.assertI64 m num

/-- Go `func (m Message) GetI32(num Number) iter.Seq[I32]`. -/
def Message.GetI32 (m : Message) (num : Number) : iter.Seq Nat :=
  get Payload.assertI32 m num

/-! ## Builders -/

/-- Go `func (m *Message) Add(num Number, value func(*Message))`: the callback
`value` receives a pointer to a fresh empty `m1` and is modelled by what it
does to that Message; the result is the content of `*m` after the call. -/
def Message.Add (m : Message) (num : Number) (value : Message → Message) : Message :=
  let m1 : Message := value []
  m ++ [Record.mk num (Payload.Message m1)]

/-- Go `func (m *Message) AddVarint(num Number, value Varint)`: the content of
`*m` after the call. -/
def Message.AddVarint (m : Message) (num : Number) (value : Nat) : Message :=
  m ++ [Record.mk num (Payload.Varint value)]

/-- Go `func (m *Message) AddI64(num Number, value I64)`: the content of `*m`
after the call. -/
def Message.AddI64 (m : Message) (num : Number) (value : Nat) : Message :=
  m ++ [Record.mk num (Payload.I64 value)]

/-- Go `func (m *Message) AddI32(num Number, value I32)`: the content of `*m`
after the call. -/
def Message.AddI32 (m : Message) (num : Number) (value : Nat) : Message :=
  m ++ [Record.mk num (Payload.I32 value)]

/-- Go `func (m *Message) AddBytes(num Number, value Bytes)`: the content of
`*m` after the call. -/
def Message.AddBytes (m : Message) (num : Number) (value : List Byte) : Message :=
  m ++ [Record.mk num (Payload.Bytes value)]

/-! ## Properties of message trees and consumers used in the statements -/

mutual
/-- No payload of kind `Message` occurs in the payload, at any depth: it is a
scalar, a `Bytes`, or a `LenPrefix` whose parsed Message has none either. -/
def Payload.noPlainMessage : Payload → Bool
  | Payload.Varint _ => true
  | Payload.I32 _ => true
  | Payload.I64 _ => true
  | Payload.Bytes _ => true
  | Payload.LenPrefix _ m => noPlainMessageList m
  | Payload.Message _ => false
/-- No record of the list has a payload of kind `Message`, at any depth. -/
def noPlainMessageList : List Record → Bool
  | [] => true
  | Record.mk _ p :: rest => Payload.noPlainMessage p && noPlainMessageList rest
end

/-- The value of a top-level payload fits the Go type that holds it: `uint64`
for `Varint` and `I64`, `uint32` for `I32`, and a slice length that fits a
`uint64` for the bytes written after the length prefix. Nothing is asked of
the content of a nested `Message` or of the parsed Message of a `LenPrefix`. -/
def Payload.fitsGo : Payload → Prop
  | Payload.Varint v => v < 2 ^ 64
  | Payload.I32 v => v < 2 ^ 32
  | Payload.I64 v => v < 2 ^ 64
  | Payload.Bytes b => b.length < 2 ^ 64
  | Payload.LenPrefix b _ => b.length < 2 ^ 64
  | Payload.Message s => (Message.Marshal s).length < 2 ^ 64

/-- A consumer that records every value `yield` is called with and returns
`false` on its `k`-th invocation and `true` on every other one, so a call made
after the `false` would show in the record. -/
def recorder {V : Type} (k : Nat) (log : List V) (v : V) : List V × Bool :=
  (log ++ [v], decide (log.length + 1 ≠ k))

/-- A consumer pulling the values of a list in order until its `yield` returns
`false`: the reference for what a sequence does to a consumer. -/
def runList {σ V : Type} (yield : σ → V → σ × Bool) : List V → σ → σ
  | [], s => s
  | v :: vs, s =>
    match yield s v with
    | (s', true) => runList yield vs s'
    | (s', false) => s'

/-- The value the decoder reads back for a payload the encoder wrote. -/
def Payload.toRaw : Payload → Raw
  | Payload.Varint v => Raw.varint v
  | Payload.I32 v => Raw.i32 v
  | Payload.I64 v => Raw.i64 v
  | Payload.Bytes b => Raw.bytes b
  | Payload.LenPrefix b _ => Raw.bytes b
  | Payload.Message s => Raw.bytes (Message.Marshal s)

/-- The record kept by the consumer `recorder k` run on the sequence `q` from
an empty record: the values `yield` was called with, in call order. -/
def iter.Seq.recordUntil {V : Type} (q : iter.Seq V) (k : Nat) : List V :=
  q (List V) (recorder k) []

/-- A Message with records numbered 5 of every payload kind and one record
with another number, to evaluate the accessors on. -/
def sampleMessage : Message :=
  [Record.mk 5 (Payload.Varint 1), Record.mk 5 (Payload.Bytes [7]),
    Record.mk 5 (Payload.Varint 2), Record.mk 4 (Payload.Varint 9),
    Record.mk 5 (Payload.LenPrefix [0x08, 0x01] [Record.mk 1 (Payload.Varint 1)]),
    Record.mk 5 (Payload.Varint 3), Record.mk 5 (Payload.I32 6), Record.mk 5 (Payload.I64 8),
    Record.mk 5 (Payload.Message [Record.mk 2 (Payload.I32 4)])]

/-! ## The sequences the accessors are specified to yield -/

/-- The sequence specified for `Get(num)`: in record order, for each record
numbered `num`, the nested Message of a `Message` payload or the parsed Message
of a `LenPrefix`; nothing for the other payload kinds. -/
def Message.fullGet (m : Message) (num : Number) : List Message :=
  m.filterMap (fun r =>
    if r.Number = num then
      (match r.Payload with
        | Payload.Message s => some s
        | Payload.LenPrefix _ pMessage => some pMessage
        | Payload.Varint _ => none
        | Payload.I32 _ => none
        | Payload.I64 _ => none
        | Payload.Bytes _ => none)
    else none)

/-- The sequence specified for `GetBytes(num)`: in record order, for each
record numbered `num`, the bytes of a `Bytes` payload or the raw bytes of a
`LenPrefix`; nothing for the other payload kinds. -/
def Message.fullGetBytes (m : Message) (num : Number) : List (List Byte) :=
  m.filterMap (fun r =>
    if r.Number = num then
      (match r.Payload with
        | Payload.Bytes b => some b
        | Payload.LenPrefix pBytes _ => some pBytes
        | Payload.Varint _ => none
        | Payload.I32 _ => none
        | Payload.I64 _ => none
        | Payload.Message _ => none)
    else none)

/-- The sequence specified for `GetVarint(num)`: in record order, the values of
the records numbered `num` whose payload is a `Varint`. -/
def Message.fullGetVarint (m : Message) (num : Number) : List Nat :=
  m.filterMap (fun r =>
    if r.Number = num then
      (match r.Payload with
        | Payload.Varint v => some v
        | Payload.I32 _ => none
        | Payload.I64 _ => none
        | Payload.Bytes _ => none
        | Payload.LenPrefix _ _ => none
        | Payload.Message _ => none)
    else none)

/-- The sequence specified for `GetI32(num)`: in record order, the values of
the records numbered `num` whose payload is an `I32`. -/
def Message.fullGetI32 (m : Message) (num : Number) : List Nat :=
  m.filterMap (fun r =>
    if r.Number = num then
      (match r.Payload with
        | Payload.I32 v => some v
        | Payload.Varint _ => none
        | Payload.I64 _ => none
        | Payload.Bytes _ => none
        | Payload.LenPrefix _ _ => none
        | Payload.Message _ => none)
    else none)

/-- The sequence specified for `GetI64(num)`: in record order, the values of
the records numbered `num` whose payload is an `I64`. -/
def Message.fullGetI64 (m : Message) (num : Number) : List Nat :=
  m.filterMap (fun r =>
    if r.Number = num then
      (match r.Payload with
        | Payload.I64 v => some v
        | Payload.Varint _ => none
        | Payload.I32 _ => none
        | Payload.Bytes _ => none
        | Payload.LenPrefix _ _ => none
        | Payload.Message _ => none)
    else none)

/-! # Theorems -/

/-! ## Wire codec lemmas -/

theorem byte_val (v : Nat) : (byte v).val = v % 256 := rfl

theorem byte_of_val (y : Byte) : byte y.val = y := by
  apply Fin.ext
  simp [byte_val, Nat.mod_eq_of_lt y.isLt]

theorem appendVarintGo_length_pos (k v : Nat) : 1 ≤ (appendVarintGo k v).length := by
  cases k with
  | zero => simp [appendVarintGo]
  | succ k =>
    unfold appendVarintGo
    split <;> simp

/-- A successful read takes at least one byte, never more than the buffer
holds, and its value is bounded by the number of bytes it may span. -/
theorem consumeVarintGo_ok (k : Nat) (b : List Byte) (v : Nat) (n : Int)
    (h : consumeVarintGo k b = (v, n)) (hn : 0 ≤ n) :
    1 ≤ n ∧ n ≤ b.length ∧ v < 2 * 128 ^ k := by
  induction k generalizing b v n with
  | zero =>
    cases b with
    | nil => simp [consumeVarintGo, errCodeTruncated] at h; omega
    | cons y rest =>
      simp only [consumeVarintGo] at h
      split at h
      · simp only [Prod.mk.injEq] at h
        obtain ⟨rfl, rfl⟩ := h
        simp; omega
      · simp [errCodeOverflow] at h; omega
  | succ k ih =>
    cases b with
    | nil => simp [consumeVarintGo, errCodeTruncated] at h; omega
    | cons y rest =>
      simp only [consumeVarintGo] at h
      split at h
      · simp only [Prod.mk.injEq] at h
        obtain ⟨rfl, rfl⟩ := h
        have : 0 < 128 ^ (k + 1) := by positivity
        simp; omega
      · rcases hr : consumeVarintGo k rest with ⟨v', n'⟩
        rw [hr] at h
        simp only at h
        split at h
        · simp only [Prod.mk.injEq] at h; omega
        · simp only [Prod.mk.injEq] at h
          obtain ⟨rfl, rfl⟩ := h
          have ih' := ih rest v' n' hr (by omega)
          have hy := y.isLt
          simp only [List.length_cons, Nat.cast_add, Nat.cast_one]
          rw [Nat.pow_succ]
          omega

/-- A failed read returns the value zero. -/
theorem consumeVarintGo_err (k : Nat) (b : List Byte) (v : Nat) (n : Int)
    (h : consumeVarintGo k b = (v, n)) (hn : n < 0) : v = 0 := by
  cases k with
  | zero =>
    cases b with
    | nil => simp [consumeVarintGo] at h; omega
    | cons y rest =>
      simp only [consumeVarintGo] at h
      split at h
      · simp only [Prod.mk.injEq] at h; omega
      · simp only [Prod.mk.injEq] at h; omega
  | succ k =>
    cases b with
    | nil => simp [consumeVarintGo] at h; omega
    | cons y rest =>
      simp only [consumeVarintGo] at h
      split at h
      · simp only [Prod.mk.injEq] at h; omega
      · rcases hr : consumeVarintGo k rest with ⟨v', n'⟩
        rw [hr] at h
        simp only at h
        split at h
        · simp only [Prod.mk.injEq] at h; omega
        · simp only [Prod.mk.injEq] at h; omega

/-- A successful read only looks at the bytes it consumes. -/
theorem consumeVarintGo_take (k : Nat) (b : List Byte) (v : Nat) (n : Int)
    (h : consumeVarintGo k b = (v, n)) (hn : 0 ≤ n) (x : List Byte) :
    consumeVarintGo k (b.take n.toNat ++ x) = (v, n) := by
  induction k generalizing b v n with
  | zero =>
    cases b with
    | nil => simp [consumeVarintGo, errCodeTruncated] at h; omega
    | cons y rest =>
      simp only [consumeVarintGo] at h
      split at h
      · rename_i hy
        simp only [Prod.mk.injEq] at h
        obtain ⟨rfl, rfl⟩ := h
        simp [consumeVarintGo, hy]
      · simp [errCodeOverflow] at h; omega
  | succ k ih =>
    cases b with
    | nil => simp [consumeVarintGo, errCodeTruncated] at h; omega
    | cons y rest =>
      simp only [consumeVarintGo] at h
      split at h
      · rename_i hy
        simp only [Prod.mk.injEq] at h
        obtain ⟨rfl, rfl⟩ := h
        simp [consumeVarintGo, hy]
      · rename_i hy
        rcases hr : consumeVarintGo k rest with ⟨v', n'⟩
        rw [hr] at h
        simp only at h
        split at h
        · simp only [Prod.mk.injEq] at h; omega
        · rename_i hn'
          simp only [Prod.mk.injEq] at h
          obtain ⟨rfl, rfl⟩ := h
          have ih' := ih rest v' n' hr (by omega)
          have h1 := (consumeVarintGo_ok k rest v' n' hr (by omega)).1
          have e : (n' + 1).toNat = n'.toNat + 1 := by omega
          rw [e, List.take_succ_cons, List.cons_append]
          simp only [consumeVarintGo, hy, if_false, ih', hn']

/-- Reading back what `AppendVarint` wrote gives the value and its length. -/
theorem consumeVarintGo_append (k v : Nat) (hv : v < 2 * 128 ^ k) (h0 : k = 0 → v = 1)
    (x : List Byte) :
    consumeVarintGo k (appendVarintGo k v ++ x) = (v, ((appendVarintGo k v).length : Int)) := by
  induction k generalizing v with
  | zero =>
    have := h0 rfl
    subst this
    simp [appendVarintGo, consumeVarintGo]
  | succ k ih =>
    unfold appendVarintGo
    split
    · rename_i h
      have : v % 256 < 128 := by omega
      have e : v % 256 = v := Nat.mod_eq_of_lt (by omega)
      simp [consumeVarintGo, byte_val, e, h]
    · rename_i h
      have hb : (v % 128 + 128) % 256 = v % 128 + 128 := Nat.mod_eq_of_lt (by omega)
      have ih' := ih (v / 128) (by rw [Nat.pow_succ] at hv; omega) (by intro _; rw [Nat.pow_succ] at hv; subst k; simp at hv; omega)
      rw [List.cons_append]
      generalize appendVarintGo k (v / 128) ++ x = t at ih'
      have hlt : ¬ (v % 128 + 128 < 128) := by omega
      have hge : ¬ (((appendVarintGo k (v / 128)).length : Int) < 0) := by omega
      simp only [consumeVarintGo, byte_val, hb, hlt, if_false, ih', hge, List.length_cons,
        Nat.cast_add, Nat.cast_one, Prod.mk.injEq, and_true]
      omega

/-- A read that takes exactly as many bytes as `AppendVarint` writes for the
value has read the bytes `AppendVarint` writes. -/
theorem consumeVarintGo_minimal (k : Nat) (b : List Byte) (v : Nat) (n : Int)
    (h : consumeVarintGo k b = (v, n)) (hn : 0 ≤ n) (h0 : k = 0 → 1 ≤ v)
    (hmin : n = ((appendVarintGo k v).length : Int)) :
    b.take n.toNat = appendVarintGo k v := by
  induction k generalizing b v n with
  | zero =>
    cases b with
    | nil => simp [consumeVarintGo, errCodeTruncated] at h; omega
    | cons y rest =>
      simp only [consumeVarintGo] at h
      split at h
      · rename_i hy
        simp only [Prod.mk.injEq] at h
        obtain ⟨rfl, rfl⟩ := h
        have := h0 rfl
        have e : y = 1 := by apply Fin.ext; simp; omega
        simp [appendVarintGo, e]
      · simp [errCodeOverflow] at h; omega
  | succ k ih =>
    cases b with
    | nil => simp [consumeVarintGo, errCodeTruncated] at h; omega
    | cons y rest =>
      simp only [consumeVarintGo] at h
      split at h
      · rename_i hy
        simp only [Prod.mk.injEq] at h
        obtain ⟨rfl, rfl⟩ := h
        simp [appendVarintGo, hy, byte_of_val]
      · rename_i hy
        rcases hr : consumeVarintGo k rest with ⟨v', n'⟩
        rw [hr] at h
        simp only at h
        split at h
        · simp only [Prod.mk.injEq] at h; omega
        · rename_i hn'
          simp only [Prod.mk.injEq] at h
          obtain ⟨rfl, rfl⟩ := h
          have h1 := (consumeVarintGo_ok k rest v' n' hr (by omega)).1
          have hyl := y.isLt
          unfold appendVarintGo at hmin ⊢
          split at hmin
          · simp at hmin; omega
          · rename_i hge
            have hdiv : (y.val - 128 + 128 * v') / 128 = v' := by omega
            have hmod : (y.val - 128 + 128 * v') % 128 + 128 = y.val := by omega
            rw [if_neg hge]
            rw [hdiv] at hmin ⊢
            rw [hmod]
            simp only [List.length_cons, Nat.cast_add, Nat.cast_one] at hmin
            have ih' := ih rest v' n' hr (by omega) (by intro _; omega) (by omega)
            have e : (n' + 1).toNat = n'.toNat + 1 := by omega
            rw [e, List.take_succ_cons, ih', byte_of_val]

/-! ## The decoder loop, one record at a time -/

theorem UnmarshalFuel_succ (fuel : Nat) (m : Message) (data : List Byte) :
    UnmarshalFuel (fuel + 1) m data =
      if data.length ≥ 1 then
        match rawRecord data with
        | Except.error err => some (m, some err)
        | Except.ok (num, raw, rest) =>
          match classifyWith (UnmarshalFuel fuel []) raw with
          | none => none
          | some p => UnmarshalFuel fuel (m ++ [Record.mk num p]) rest
      else some (m, none) := by
  rw [UnmarshalFuel]
  split
  · unfold rawRecord rawPayload
    rcases ConsumeTag data with ⟨num, wt, size⟩
    simp only
    cases ParseError size with
    | some err => simp
    | none =>
      simp only
      split
      · rcases ConsumeBytes (List.drop size.toNat data) with ⟨value, size2⟩
        simp only
        cases ParseError size2 <;> simp [classifyWith]
      · split
        · rcases ConsumeFixed32 (List.drop size.toNat data) with ⟨value, size2⟩
          simp only
          cases ParseError size2 <;> simp [classifyWith]
        · split
          · rcases ConsumeFixed64 (List.drop size.toNat data) with ⟨value, size2⟩
            simp only
            cases ParseError size2 <;> simp [classifyWith]
          · split
            · rcases ConsumeVarint (List.drop size.toNat data) with ⟨value, size2⟩
              simp only
              cases ParseError size2 <;> simp [classifyWith]
            · simp
  · rfl

theorem ParseError_eq_none (n : Int) : ParseError n = none ↔ 0 ≤ n := by
  unfold ParseError
  constructor
  · intro h
    by_contra hn
    have hn' : ¬ (n ≥ 0) := hn
    rw [if_neg hn'] at h
    revert h
    repeat' split
    all_goals (intro h; cases h)
  · intro h
    simp [h]

theorem ParseError_of_nonneg (n : Int) (h : 0 ≤ n) : ParseError n = none :=
  (ParseError_eq_none n).2 h

theorem ParseError_some_neg (n : Int) (e : Error) (h : ParseError n = some e) : n < 0 := by
  by_contra hn
  rw [ParseError_of_nonneg n (by omega)] at h
  simp at h

theorem ConsumeVarint_ok (b : List Byte) (v : Nat) (n : Int)
    (h : ConsumeVarint b = (v, n)) (hn : 0 ≤ n) :
    1 ≤ n ∧ n ≤ b.length ∧ v < 2 ^ 64 := by
  have := consumeVarintGo_ok 9 b v n h hn
  have e : 2 * 128 ^ 9 = 2 ^ 64 := by norm_num
  omega

theorem ConsumeVarint_take (b : List Byte) (v : Nat) (n : Int)
    (h : ConsumeVarint b = (v, n)) (hn : 0 ≤ n) (x : List Byte) :
    ConsumeVarint (b.take n.toNat ++ x) = (v, n) :=
  consumeVarintGo_take 9 b v n h hn x

theorem ConsumeVarint_AppendVarint (v : Nat) (hv : v < 2 ^ 64) (x : List Byte) :
    ConsumeVarint (AppendVarint [] v ++ x) = (v, ((AppendVarint [] v).length : Int)) := by
  have e : 2 * 128 ^ 9 = 2 ^ 64 := by norm_num
  have := consumeVarintGo_append 9 v (by omega) (by intro h; omega) x
  simpa [ConsumeVarint, AppendVarint] using this

theorem ConsumeVarint_minimal (b : List Byte) (v : Nat) (n : Int)
    (h : ConsumeVarint b = (v, n)) (hn : 0 ≤ n)
    (hmin : n = ((AppendVarint [] v).length : Int)) :
    b.take n.toNat = AppendVarint [] v := by
  have := consumeVarintGo_minimal 9 b v n h hn (by intro h; omega)
    (by simpa [AppendVarint] using hmin)
  simpa [AppendVarint] using this

theorem AppendVarint_eq (b : List Byte) (v : Nat) :
    AppendVarint b v = b ++ AppendVarint [] v := by
  simp [AppendVarint]

theorem AppendVarint_length_pos (v : Nat) : 1 ≤ (AppendVarint [] v).length := by
  simpa [AppendVarint] using appendVarintGo_length_pos 9 v

theorem EncodeTag_eq (num : Int) (typ : Nat) :
    EncodeTag num typ = 8 * ((num % 2 ^ 64).toNat % 2 ^ 61) + typ % 8 := by
  unfold EncodeTag
  have h1 : (num % 2 ^ 64).toNat * 8 % 2 ^ 64 = 2 ^ 3 * ((num % 2 ^ 64).toNat % 2 ^ 61) := by
    omega
  rw [h1, ← Nat.mul_add_lt_is_or (by omega)]

theorem EncodeTag_valid (num : Int) (typ : Nat) (h1 : 1 ≤ num)
    (h2 : num ≤ 2147483647) (ht : typ < 8) :
    EncodeTag num typ = 8 * num.toNat + typ := by
  rw [EncodeTag_eq]
  obtain ⟨k, rfl⟩ := Int.eq_ofNat_of_zero_le (show 0 ≤ num by omega)
  have e : ((k : Int) % 2 ^ 64).toNat = k % 2 ^ 64 := by
    have : ((k : Int) % 2 ^ 64) = ((k % 2 ^ 64 : Nat) : Int) := by push_cast; rfl
    rw [this, Int.toNat_ofNat]
  rw [e, Int.toNat_ofNat]
  clear e
  omega

theorem EncodeTag_valid_lt (num : Int) (typ : Nat) (h1 : 1 ≤ num)
    (h2 : num ≤ 2147483647) (ht : typ < 8) :
    EncodeTag num typ < 2 ^ 64 := by
  rw [EncodeTag_valid num typ h1 h2 ht]
  have := Int.toNat_of_nonneg (show 0 ≤ num by omega)
  omega

/-- A successful `ConsumeTag` read a varint whose value is the tag of a valid
field number and a 3-bit wire type. -/
theorem ConsumeTag_ok (b : List Byte) (num : Int) (wt : Nat) (n : Int)
    (h : ConsumeTag b = (num, wt, n)) (hn : 0 ≤ n) :
    ConsumeVarint b = (EncodeTag num wt, n) ∧ 1 ≤ num ∧ num ≤ 2147483647 ∧ wt < 8 := by
  unfold ConsumeTag at h
  rcases hv : ConsumeVarint b with ⟨v, k⟩
  rw [hv] at h
  simp only at h
  split at h
  · simp only [Prod.mk.injEq] at h; omega
  · unfold DecodeTag at h
    split at h
    · simp [MinValidNumber, errCodeFieldNumber] at h
      omega
    · rename_i hk hx
      simp only at h
      split at h
      · simp [errCodeFieldNumber] at h
        omega
      · rename_i hnum
        simp only [Prod.mk.injEq] at h
        obtain ⟨rfl, rfl, rfl⟩ := h
        simp only [MinValidNumber] at hnum
        have hM : MaxInt32 = 2147483647 := rfl
        have hw : v % 8 < 8 := Nat.mod_lt _ (by decide)
        have h1 : (1 : Int) ≤ ((v / 8 : Nat) : Int) := by omega
        have h2 : ((v / 8 : Nat) : Int) ≤ 2147483647 := by omega
        refine ⟨?_, h1, h2, hw⟩
        rw [EncodeTag_valid _ _ h1 h2 hw]
        simp only [Int.toNat_ofNat, Prod.mk.injEq, and_true]
        omega

theorem ConsumeTag_take (b : List Byte) (num : Int) (wt : Nat) (n : Int)
    (h : ConsumeTag b = (num, wt, n)) (hn : 0 ≤ n) (x : List Byte) :
    ConsumeTag (b.take n.toNat ++ x) = (num, wt, n) := by
  have hv := (ConsumeTag_ok b num wt n h hn).1
  have hv' := ConsumeVarint_take b _ n hv hn x
  have hv0 := ConsumeVarint_take b _ n hv hn (b.drop n.toNat)
  rw [List.take_append_drop] at hv0
  unfold ConsumeTag at h ⊢
  rw [hv'] 
  rw [hv] at h
  exact h

theorem ConsumeTag_of_varint (b : List Byte) (num : Int) (wt : Nat) (n : Int)
    (h : ConsumeVarint b = (EncodeTag num wt, n)) (hn : 0 ≤ n) (h1 : 1 ≤ num)
    (h2 : num ≤ 2147483647) (ht : wt < 8) :
    ConsumeTag b = (num, wt, n) := by
  unfold ConsumeTag
  rw [h]
  simp only
  rw [if_neg (by omega)]
  rw [EncodeTag_valid num wt h1 h2 ht]
  unfold DecodeTag
  have hnn := Int.toNat_of_nonneg (show 0 ≤ num by omega)
  have e1 : (8 * num.toNat + wt) / 8 = num.toNat := by omega
  have e2 : (8 * num.toNat + wt) % 8 = wt := by omega
  have e3 : ((num.toNat : Nat) : Int) = num := by omega
  have hM : MaxInt32 = 2147483647 := rfl
  have hc : ¬ (num.toNat > MaxInt32) := by omega
  have hd : ¬ (num < 1) := by omega
  rw [e1, e2, if_neg hc]
  simp only [e3, MinValidNumber]
  rw [if_neg hd]

theorem ConsumeTag_AppendTag (num : Int) (wt : Nat) (h1 : 1 ≤ num)
    (h2 : num ≤ 2147483647) (ht : wt < 8) (x : List Byte) :
    ConsumeTag (AppendTag [] num wt ++ x) = (num, wt, ((AppendTag [] num wt).length : Int)) := by
  apply ConsumeTag_of_varint _ _ _ _ _ (by omega) h1 h2 ht
  exact ConsumeVarint_AppendVarint _ (EncodeTag_valid_lt num wt h1 h2 ht) x

theorem ConsumeFixed32_ok (b : List Byte) (v : Nat) (n : Int)
    (h : ConsumeFixed32 b = (v, n)) (hn : 0 ≤ n) :
    n = 4 ∧ 4 ≤ b.length ∧ v < 2 ^ 32 ∧ b.take 4 = AppendFixed32 [] v ∧
      ∀ x, ConsumeFixed32 (b.take 4 ++ x) = (v, 4) := by
  unfold ConsumeFixed32 at h
  split at h
  · rename_i b0 b1 b2 b3 rest
    simp only [Prod.mk.injEq] at h
    obtain ⟨rfl, rfl⟩ := h
    have h0 := b0.isLt
    have h1 := b1.isLt
    have h2 := b2.isLt
    have h3 := b3.isLt
    refine ⟨rfl, by simp, by omega, ?_, ?_⟩
    · simp only [AppendFixed32, List.nil_append, List.take_succ_cons, List.take_zero]
      have e0 : byte (b0.val + b1.val * 2 ^ 8 + b2.val * 2 ^ 16 + b3.val * 2 ^ 24) = b0 := by
        apply Fin.ext; rw [byte_val]; omega
      have e1 : byte ((b0.val + b1.val * 2 ^ 8 + b2.val * 2 ^ 16 + b3.val * 2 ^ 24) / 2 ^ 8)
          = b1 := by
        apply Fin.ext; rw [byte_val]; omega
      have e2 : byte ((b0.val + b1.val * 2 ^ 8 + b2.val * 2 ^ 16 + b3.val * 2 ^ 24) / 2 ^ 16)
          = b2 := by
        apply Fin.ext; rw [byte_val]; omega
      have e3 : byte ((b0.val + b1.val * 2 ^ 8 + b2.val * 2 ^ 16 + b3.val * 2 ^ 24) / 2 ^ 24)
          = b3 := by
        apply Fin.ext; rw [byte_val]; omega
      rw [e0, e1, e2, e3]
    · intro x
      simp [ConsumeFixed32]
  · simp [errCodeTruncated] at h
    omega

theorem ConsumeFixed32_AppendFixed32 (v : Nat) (hv : v < 2 ^ 32) (x : List Byte) :
    ConsumeFixed32 (AppendFixed32 [] v ++ x) = (v, 4) := by
  simp only [AppendFixed32, List.nil_append, List.cons_append, ConsumeFixed32, byte_val,
    Prod.mk.injEq, and_true]
  omega

theorem ConsumeFixed64_ok (b : List Byte) (v : Nat) (n : Int)
    (h : ConsumeFixed64 b = (v, n)) (hn : 0 ≤ n) :
    n = 8 ∧ 8 ≤ b.length ∧ v < 2 ^ 64 ∧ b.take 8 = AppendFixed64 [] v ∧
      ∀ x, ConsumeFixed64 (b.take 8 ++ x) = (v, 8) := by
  unfold ConsumeFixed64 at h
  split at h
  · rename_i b0 b1 b2 b3 b4 b5 b6 b7 rest
    simp only [Prod.mk.injEq] at h
    obtain ⟨rfl, rfl⟩ := h
    have h0 := b0.isLt
    have h1 := b1.isLt
    have h2 := b2.isLt
    have h3 := b3.isLt
    have h4 := b4.isLt
    have h5 := b5.isLt
    have h6 := b6.isLt
    have h7 := b7.isLt
    refine ⟨rfl, by simp, by omega, ?_, ?_⟩
    · simp only [AppendFixed64, List.nil_append, List.take_succ_cons, List.take_zero]
      generalize hV : b0.val + b1.val * 2 ^ 8 + b2.val * 2 ^ 16 + b3.val * 2 ^ 24
        + b4.val * 2 ^ 32 + b5.val * 2 ^ 40 + b6.val * 2 ^ 48 + b7.val * 2 ^ 56 = V
      have e0 : byte V = b0 := by apply Fin.ext; rw [byte_val]; omega
      have e1 : byte (V / 2 ^ 8) = b1 := by apply Fin.ext; rw [byte_val]; omega
      have e2 : byte (V / 2 ^ 16) = b2 := by apply Fin.ext; rw [byte_val]; omega
      have e3 : byte (V / 2 ^ 24) = b3 := by apply Fin.ext; rw [byte_val]; omega
      have e4 : byte (V / 2 ^ 32) = b4 := by apply Fin.ext; rw [byte_val]; omega
      have e5 : byte (V / 2 ^ 40) = b5 := by apply Fin.ext; rw [byte_val]; omega
      have e6 : byte (V / 2 ^ 48) = b6 := by apply Fin.ext; rw [byte_val]; omega
      have e7 : byte (V / 2 ^ 56) = b7 := by apply Fin.ext; rw [byte_val]; omega
      rw [e0, e1, e2, e3, e4, e5, e6, e7]
    · intro x
      simp [ConsumeFixed64]
  · simp [errCodeTruncated] at h
    omega

theorem ConsumeFixed64_AppendFixed64 (v : Nat) (hv : v < 2 ^ 64) (x : List Byte) :
    ConsumeFixed64 (AppendFixed64 [] v ++ x) = (v, 8) := by
  simp only [AppendFixed64, List.nil_append, List.cons_append, ConsumeFixed64, byte_val,
    Prod.mk.injEq, and_true]
  omega

theorem ConsumeBytes_ok (b : List Byte) (value : List Byte) (n : Int)
    (h : ConsumeBytes b = (value, n)) (hn : 0 ≤ n) :
    ∃ k : Int, ConsumeVarint b = (value.length, k) ∧ 1 ≤ k ∧ n = k + value.length ∧
      n ≤ b.length ∧ b.take n.toNat = b.take k.toNat ++ value ∧ value.length < 2 ^ 64 ∧
      ∀ x, ConsumeBytes (b.take n.toNat ++ x) = (value, n) := by
  unfold ConsumeBytes at h
  rcases hv : ConsumeVarint b with ⟨m, k⟩
  rw [hv] at h
  simp only at h
  split at h
  · simp only [Prod.mk.injEq] at h; omega
  · rename_i hk
    split at h
    · simp [errCodeTruncated] at h; omega
    · rename_i hm
      simp only [Prod.mk.injEq] at h
      obtain ⟨rfl, rfl⟩ := h
      have hok := ConsumeVarint_ok b m k hv (by omega)
      have hlen : (List.take m (List.drop k.toNat b)).length = m := by
        rw [List.length_take]; omega
      have hdl : (List.drop k.toNat b).length = b.length - k.toNat := List.length_drop _ _
      have htake : List.take (k + (m : Int)).toNat b
          = List.take k.toNat b ++ List.take m (List.drop k.toNat b) := by
        have e : (k + (m : Int)).toNat = k.toNat + m := by omega
        rw [e, List.take_add]
      refine ⟨k, by rw [hlen], hok.1, by rw [hlen], by omega, htake, by rw [hlen]; exact hok.2.2, ?_⟩
      intro x
      have hv' := ConsumeVarint_take b m k hv (by omega)
        (List.take m (List.drop k.toNat b) ++ x)
      rw [htake, List.append_assoc]
      unfold ConsumeBytes
      rw [hv']
      simp only
      have hkl : (List.take k.toNat b).length = k.toNat := by
        rw [List.length_take]; omega
      have hdrop : List.drop k.toNat (List.take k.toNat b ++ (List.take m (List.drop k.toNat b) ++ x))
          = List.take m (List.drop k.toNat b) ++ x := by
        rw [List.drop_append_of_le_length (by omega), List.drop_of_length_le (by omega)]
        rfl
      rw [if_neg hk, hdrop]
      rw [if_neg (by rw [List.length_append, hlen]; omega)]
      rw [List.take_append_of_le_length (by omega), List.take_of_length_le (by omega)]

theorem ConsumeBytes_AppendBytes (value : List Byte) (hv : value.length < 2 ^ 64)
    (x : List Byte) :
    ConsumeBytes (AppendBytes [] value ++ x) = (value, ((AppendBytes [] value).length : Int)) := by
  have h := ConsumeVarint_AppendVarint value.length hv (value ++ x)
  unfold ConsumeBytes AppendBytes
  rw [List.append_assoc, h]
  simp only
  have hn : ¬ (((AppendVarint [] value.length).length : Int) < 0) := by omega
  rw [if_neg hn]
  simp only [Int.toNat_ofNat, List.drop_left, List.length_append]
  rw [if_neg (by omega)]
  simp

/-! ## One record: what a successful read consumed -/

theorem minimalVarint_take (b : List Byte) (v : Nat) (n : Int)
    (h : ConsumeVarint b = (v, n)) (hn : 0 ≤ n) (hmin : minimalVarint b = true) :
    b.take n.toNat = AppendVarint [] v := by
  unfold minimalVarint at hmin
  rw [h] at hmin
  simp only [decide_eq_true_eq] at hmin
  exact ConsumeVarint_minimal b v n h hn hmin

/-- A payload read that succeeds splits `data` into the bytes it consumed and
the rest; it depends on the consumed bytes only, the value fits its Go type,
and a minimal payload is the one the encoder writes. -/
theorem rawPayload_ok (wt : Nat) (data : List Byte) (raw : Raw) (rest : List Byte)
    (h : rawPayload wt data = Except.ok (raw, rest)) :
    ∃ pre, data = pre ++ rest ∧ 1 ≤ pre.length ∧ wt = raw.wireType ∧ raw.inRange ∧
      (∀ value, raw = Raw.bytes value → value.length + 1 ≤ pre.length) ∧
      (∀ x, rawPayload wt (pre ++ x) = Except.ok (raw, x)) ∧
      (minimalPayload wt data = true → pre = raw.encPayload) := by
  unfold rawPayload at h
  split at h
  · -- length-delimited
    rename_i hwt
    rcases hc : ConsumeBytes data with ⟨value, size⟩
    rw [hc] at h
    simp only at h
    cases hp : ParseError size with
    | some err => rw [hp] at h; simp at h
    | none =>
      rw [hp] at h
      simp only [Except.ok.injEq, Prod.mk.injEq] at h
      obtain ⟨rfl, rfl⟩ := h
      have hn := (ParseError_eq_none size).1 hp
      obtain ⟨k, hv, hk1, hsz, hle, htk, hlen, hstab⟩ := ConsumeBytes_ok data value size hc hn
      have hpl : (List.take size.toNat data).length = size.toNat := by
        rw [List.length_take]; omega
      refine ⟨data.take size.toNat, (List.take_append_drop _ _).symm, by omega, hwt,
        hlen, ?_, ?_, ?_⟩
      · intro value' hv'
        cases hv'
        omega
      · intro x
        unfold rawPayload
        rw [if_pos hwt, hstab x]
        simp only [hp]
        rw [List.drop_append_of_le_length (by omega), List.drop_of_length_le (by omega)]
        rfl
      · intro hmin
        unfold minimalPayload at hmin
        rw [if_pos (Or.inl hwt)] at hmin
        have := minimalVarint_take data _ k hv (by omega) hmin
        rw [htk, this]
        simp [Raw.encPayload, AppendBytes]
  · split at h
    · -- fixed32
      rename_i hwt1 hwt
      rcases hc : ConsumeFixed32 data with ⟨value, size⟩
      rw [hc] at h
      simp only at h
      cases hp : ParseError size with
      | some err => rw [hp] at h; simp at h
      | none =>
        rw [hp] at h
        simp only [Except.ok.injEq, Prod.mk.injEq] at h
        obtain ⟨rfl, rfl⟩ := h
        have hn := (ParseError_eq_none size).1 hp
        obtain ⟨rfl, hle, hlt, htk, hstab⟩ := ConsumeFixed32_ok data value size hc hn
        have hpl : (List.take 4 data).length = 4 := by
          rw [List.length_take]; omega
        refine ⟨data.take 4, (List.take_append_drop _ _).symm, by omega, hwt,
          hlt, ?_, ?_, ?_⟩
        · intro value' hv'
          cases hv'
        · intro x
          unfold rawPayload
          rw [if_neg hwt1, if_pos hwt, hstab x]
          simp only [hp]
          show Except.ok (Raw.i32 value, List.drop 4 (List.take 4 data ++ x)) = _
          rw [List.drop_append_of_le_length (by omega), List.drop_of_length_le (by omega)]
          rfl
        · intro _
          rw [htk]
          rfl
    · split at h
      · -- fixed64
        rename_i hwt1 hwt2 hwt
        rcases hc : ConsumeFixed64 data with ⟨value, size⟩
        rw [hc] at h
        simp only at h
        cases hp : ParseError size with
        | some err => rw [hp] at h; simp at h
        | none =>
          rw [hp] at h
          simp only [Except.ok.injEq, Prod.mk.injEq] at h
          obtain ⟨rfl, rfl⟩ := h
          have hn := (ParseError_eq_none size).1 hp
          obtain ⟨rfl, hle, hlt, htk, hstab⟩ := ConsumeFixed64_ok data value size hc hn
          have hpl : (List.take 8 data).length = 8 := by
            rw [List.length_take]; omega
          refine ⟨data.take 8, (List.take_append_drop _ _).symm, by omega, hwt,
            hlt, ?_, ?_, ?_⟩
          · intro value' hv'
            cases hv'
          · intro x
            unfold rawPayload
            rw [if_neg hwt1, if_neg hwt2, if_pos hwt, hstab x]
            simp only [hp]
            show Except.ok (Raw.i64 value, List.drop 8 (List.take 8 data ++ x)) = _
            rw [List.drop_append_of_le_length (by omega), List.drop_of_length_le (by omega)]
            rfl
          · intro _
            rw [htk]
            rfl
      · split at h
        · -- varint
          rename_i hwt1 hwt2 hwt3 hwt
          rcases hc : ConsumeVarint data with ⟨value, size⟩
          rw [hc] at h
          simp only at h
          cases hp : ParseError size with
          | some err => rw [hp] at h; simp at h
          | none =>
            rw [hp] at h
            simp only [Except.ok.injEq, Prod.mk.injEq] at h
            obtain ⟨rfl, rfl⟩ := h
            have hn := (ParseError_eq_none size).1 hp
            obtain ⟨h1, hle, hlt⟩ := ConsumeVarint_ok data value size hc hn
            have hpl : (List.take size.toNat data).length = size.toNat := by
              rw [List.length_take]; omega
            refine ⟨data.take size.toNat, (List.take_append_drop _ _).symm, by omega, hwt,
              hlt, ?_, ?_, ?_⟩
            · intro value' hv'
              cases hv'
            · intro x
              unfold rawPayload
              rw [if_neg hwt1, if_neg hwt2, if_neg hwt3, if_pos hwt,
                ConsumeVarint_take data value size hc hn x]
              simp only [hp]
              rw [List.drop_append_of_le_length (by omega), List.drop_of_length_le (by omega)]
              rfl
            · intro hmin
              unfold minimalPayload at hmin
              rw [if_pos (Or.inr hwt)] at hmin
              exact minimalVarint_take data _ size hc hn hmin
        · simp at h

/-- A record read that succeeds splits `data` into the bytes of the record and
the rest; the field number is valid, the value fits its Go type, the read
depends on the bytes of the record only, and a minimal record is the one the
encoder writes. -/
theorem rawRecord_ok (data : List Byte) (num : Int) (raw : Raw) (rest : List Byte)
    (h : rawRecord data = Except.ok (num, raw, rest)) :
    ∃ pre, data = pre ++ rest ∧ 2 ≤ pre.length ∧ 1 ≤ num ∧ num ≤ 2147483647 ∧ raw.inRange ∧
      (∀ value, raw = Raw.bytes value → value.length + 2 ≤ pre.length) ∧
      (∀ x, rawRecord (pre ++ x) = Except.ok (num, raw, x)) ∧
      (minimalRecord data = true → pre = raw.enc num) := by
  unfold rawRecord at h
  rcases hc : ConsumeTag data with ⟨num0, wt, size⟩
  rw [hc] at h
  simp only at h
  cases hp : ParseError size with
  | some err => rw [hp] at h; simp at h
  | none =>
    rw [hp] at h
    simp only at h
    have hn := (ParseError_eq_none size).1 hp
    obtain ⟨hv, h1, h2, hwt⟩ := ConsumeTag_ok data num0 wt size hc hn
    obtain ⟨hs1, hsl, _⟩ := ConsumeVarint_ok data _ size hv hn
    cases hr : rawPayload wt (List.drop size.toNat data) with
    | error err => rw [hr] at h; simp at h
    | ok res =>
      obtain ⟨raw0, rest0⟩ := res
      rw [hr] at h
      simp only [Except.ok.injEq, Prod.mk.injEq] at h
      obtain ⟨rfl, rfl, rfl⟩ := h
      obtain ⟨pre2, hsplit, hl2, hwt2, hrange, hval, hstab, hmin⟩ :=
        rawPayload_ok wt _ raw0 rest0 hr
      have hpl : (List.take size.toNat data).length = size.toNat := by
        rw [List.length_take]; omega
      refine ⟨data.take size.toNat ++ pre2, ?_, ?_, h1, h2, hrange, ?_, ?_, ?_⟩
      · rw [List.append_assoc, ← hsplit, List.take_append_drop]
      · rw [List.length_append]; omega
      · intro value hv'
        have := hval value hv'
        rw [List.length_append]; omega
      · intro x
        unfold rawRecord
        rw [List.append_assoc, ConsumeTag_take data num0 wt size hc hn (pre2 ++ x)]
        simp only [hp]
        rw [List.drop_append_of_le_length (by omega), List.drop_of_length_le (by omega)]
        rw [List.nil_append, hstab x]
      · intro hm
        unfold minimalRecord at hm
        rw [hc] at hm
        simp only [Bool.and_eq_true] at hm
        have ht := minimalVarint_take data _ size hv hn hm.1
        rw [ht, hmin hm.2, hwt2]
        rfl

/-- Reading back a record the encoder wrote gives the record. -/
theorem rawRecord_enc (num : Int) (raw : Raw) (h1 : 1 ≤ num) (h2 : num ≤ 2147483647)
    (hr : raw.inRange) (x : List Byte) :
    rawRecord (raw.enc num ++ x) = Except.ok (num, raw, x) := by
  have hwt : raw.wireType < 8 := by
    cases raw <;> simp [Raw.wireType, VarintType, Fixed32Type, Fixed64Type, BytesType]
  have ht := ConsumeTag_AppendTag num raw.wireType h1 h2 hwt (raw.encPayload ++ x)
  unfold rawRecord Raw.enc
  rw [List.append_assoc, ht]
  have hp : ParseError ((AppendTag [] num raw.wireType).length : Int) = none :=
    ParseError_of_nonneg _ (by omega)
  simp only [hp, Int.toNat_ofNat, List.drop_left]
  cases raw with
  | varint v =>
    have hv : v < 2 ^ 64 := hr
    have hc := ConsumeVarint_AppendVarint v hv x
    have hp2 : ParseError ((AppendVarint [] v).length : Int) = none :=
      ParseError_of_nonneg _ (by omega)
    simp [rawPayload, Raw.wireType, Raw.encPayload, VarintType, BytesType, Fixed32Type,
      Fixed64Type, hc, hp2]
  | i32 v =>
    have hv : v < 2 ^ 32 := hr
    have hc := ConsumeFixed32_AppendFixed32 v hv x
    have hp2 : ParseError 4 = none := ParseError_of_nonneg _ (by omega)
    have hl : List.drop 4 (AppendFixed32 [] v ++ x) = x := by simp [AppendFixed32]
    simp [rawPayload, Raw.wireType, Raw.encPayload, VarintType, BytesType, Fixed32Type,
      Fixed64Type, hc, hp2, hl]
  | i64 v =>
    have hv : v < 2 ^ 64 := hr
    have hc := ConsumeFixed64_AppendFixed64 v hv x
    have hp2 : ParseError 8 = none := ParseError_of_nonneg _ (by omega)
    have hl : List.drop 8 (AppendFixed64 [] v ++ x) = x := by simp [AppendFixed64]
    simp [rawPayload, Raw.wireType, Raw.encPayload, VarintType, BytesType, Fixed32Type,
      Fixed64Type, hc, hp2, hl]
  | bytes value =>
    have hv : value.length < 2 ^ 64 := hr
    have hc := ConsumeBytes_AppendBytes value hv x
    have hp2 : ParseError ((AppendBytes [] value).length : Int) = none :=
      ParseError_of_nonneg _ (by omega)
    simp [rawPayload, Raw.wireType, Raw.encPayload, VarintType, BytesType, Fixed32Type,
      Fixed64Type, hc, hp2]

/-- A tag with a wire type outside varint, fixed64, length-delimited and
fixed32 makes the record read fail with the decoder's own error. -/
theorem rawRecord_reserved (T : List Byte) (num : Int) (wt : Nat)
    (hT : ConsumeTag T = (num, wt, (T.length : Int)))
    (hwt : wt = 3 ∨ wt = 4 ∨ wt = 6 ∨ wt = 7) (R : List Byte) :
    rawRecord (T ++ R) = Except.error (Error.New "cannot parse reserved wire type") := by
  have h := ConsumeTag_take T num wt T.length hT (by omega) R
  simp only [Int.toNat_ofNat, List.take_length] at h
  have hp : ParseError (T.length : Int) = none := ParseError_of_nonneg _ (by omega)
  unfold rawRecord
  rw [h]
  simp only [hp, Int.toNat_ofNat]
  have e : rawPayload wt (List.drop T.length (T ++ R))
      = Except.error (Error.New "cannot parse reserved wire type") := by
    unfold rawPayload
    rw [if_neg (by simp only [BytesType]; omega), if_neg (by simp only [Fixed32Type]; omega),
      if_neg (by simp only [Fixed64Type]; omega), if_neg (by simp only [VarintType]; omega)]
  rw [e]

/-! ## Fuel: `len(data)` units suffice -/

theorem UnmarshalFuel_nil (fuel : Nat) (m : Message) :
    UnmarshalFuel fuel m [] = some (m, none) := by
  cases fuel with
  | zero => simp [UnmarshalFuel]
  | succ f => rw [UnmarshalFuel_succ]; simp

theorem unmarshalWith_congr (dec dec' : List Byte → Option (Message × Option Error))
    (value : List Byte) (h : dec value = dec' value) :
    unmarshalWith dec value = unmarshalWith dec' value := by
  unfold unmarshalWith
  rw [h]

theorem classifyWith_congr (dec dec' : List Byte → Option (Message × Option Error))
    (raw : Raw) (h : ∀ value, raw = Raw.bytes value → dec value = dec' value) :
    classifyWith dec raw = classifyWith dec' raw := by
  cases raw with
  | bytes value => exact unmarshalWith_congr dec dec' value (h value rfl)
  | _ => rfl

theorem unmarshalWith_isSome (dec : List Byte → Option (Message × Option Error))
    (value : List Byte) (r : Message × Option Error) (h : dec value = some r) :
    ∃ p, unmarshalWith dec value = some p := by
  unfold unmarshalWith
  rw [h]
  obtain ⟨m, e⟩ := r
  split
  · cases e with
    | none => exact ⟨_, rfl⟩
    | some e => exact ⟨_, rfl⟩
  · exact ⟨_, rfl⟩

/-- With at least `len(data)` units of fuel the decoder returns, and its result
does not depend on how much more fuel it is given. -/
theorem UnmarshalFuel_stable (fuel : Nat) (m : Message) (data : List Byte)
    (h : data.length ≤ fuel) :
    ∃ r, UnmarshalFuel fuel m data = some r ∧
      ∀ fuel', data.length ≤ fuel' → UnmarshalFuel fuel' m data = some r := by
  induction fuel generalizing m data with
  | zero =>
    have hd : data = [] := List.length_eq_zero.mp (by omega)
    subst hd
    exact ⟨(m, none), UnmarshalFuel_nil 0 m, fun f _ => UnmarshalFuel_nil f m⟩
  | succ fuel ih =>
    by_cases hd : data.length ≥ 1
    · cases hr : rawRecord data with
      | error err =>
        refine ⟨(m, some err), ?_, ?_⟩
        · rw [UnmarshalFuel_succ, if_pos hd, hr]
        · intro fuel' hf
          obtain ⟨f, rfl⟩ : ∃ f, fuel' = f + 1 := ⟨fuel' - 1, by omega⟩
          rw [UnmarshalFuel_succ, if_pos hd, hr]
      | ok res =>
        obtain ⟨num, raw, rest⟩ := res
        obtain ⟨pre, hsplit, hpl, -, -, -, hval, -, -⟩ := rawRecord_ok data num raw rest hr
        have hlen : data.length = pre.length + rest.length := by
          rw [hsplit, List.length_append]
        have hcl : ∃ p, ∀ f, data.length ≤ f + 1 →
            classifyWith (UnmarshalFuel f []) raw = some p := by
          cases raw with
          | bytes value =>
            have hvl := hval value rfl
            obtain ⟨rv, h1, h2⟩ := ih [] value (by omega)
            obtain ⟨p, hp⟩ := unmarshalWith_isSome (UnmarshalFuel fuel []) value rv h1
            refine ⟨p, fun f hf => ?_⟩
            show unmarshalWith (UnmarshalFuel f []) value = some p
            rw [← hp]
            apply unmarshalWith_congr
            rw [h1, h2 f (by omega)]
          | varint v => exact ⟨_, fun _ _ => rfl⟩
          | i32 v => exact ⟨_, fun _ _ => rfl⟩
          | i64 v => exact ⟨_, fun _ _ => rfl⟩
        obtain ⟨p, hp⟩ := hcl
        obtain ⟨r, h1, h2⟩ := ih (m ++ [Record.mk num p]) rest (by omega)
        refine ⟨r, ?_, ?_⟩
        · rw [UnmarshalFuel_succ, if_pos hd, hr]
          simp only [hp fuel h, h1]
        · intro fuel' hf
          obtain ⟨f, rfl⟩ : ∃ f, fuel' = f + 1 := ⟨fuel' - 1, by omega⟩
          rw [UnmarshalFuel_succ, if_pos hd, hr]
          simp only [hp f hf, h2 f (by omega)]
    · have hd' : data = [] := List.length_eq_zero.mp (by omega)
      subst hd'
      exact ⟨(m, none), UnmarshalFuel_nil _ m, fun f _ => UnmarshalFuel_nil f m⟩

theorem UnmarshalFuel_eq (fuel : Nat) (m : Message) (data : List Byte)
    (h : data.length ≤ fuel) : UnmarshalFuel fuel m data = Message.Unmarshal m data := by
  obtain ⟨r, -, h2⟩ := UnmarshalFuel_stable fuel m data h
  rw [h2 fuel h]
  unfold Message.Unmarshal
  rw [h2 data.length (le_refl _)]

/-- The decoder returns on every input. -/
theorem UnmarshalFuel_total (m : Message) (data : List Byte) :
    ∃ r, Message.Unmarshal m data = some r := by
  obtain ⟨r, h1, -⟩ := UnmarshalFuel_stable data.length m data (le_refl _)
  exact ⟨r, h1⟩

/-! ## The decoder without fuel -/

theorem Unmarshal_nil (m : Message) : Message.Unmarshal m [] = some (m, none) :=
  UnmarshalFuel_nil 0 m

theorem Unmarshal_error (m : Message) (data : List Byte) (err : Error)
    (hd : data.length ≥ 1) (hr : rawRecord data = Except.error err) :
    Message.Unmarshal m data = some (m, some err) := by
  obtain ⟨f, hf⟩ : ∃ f, data.length = f + 1 := ⟨data.length - 1, by omega⟩
  unfold Message.Unmarshal
  rw [hf, UnmarshalFuel_succ, if_pos hd, hr]

theorem classifyWith_fuel (f : Nat) (data : List Byte) (num : Int) (raw : Raw)
    (rest : List Byte) (hr : rawRecord data = Except.ok (num, raw, rest))
    (hf : data.length ≤ f + 1) :
    classifyWith (UnmarshalFuel f []) raw = classifyWith (Message.Unmarshal []) raw := by
  obtain ⟨pre, hsplit, hpl, -, -, -, hval, -, -⟩ := rawRecord_ok data num raw rest hr
  have hlen : data.length = pre.length + rest.length := by
    rw [hsplit, List.length_append]
  apply classifyWith_congr
  intro value hv
  have := hval value hv
  exact UnmarshalFuel_eq f [] value (by omega)

/-- One iteration of the loop: the record is appended and the loop goes on
with the rest of `data`. -/
theorem Unmarshal_ok (m : Message) (data : List Byte) (num : Int) (raw : Raw)
    (rest : List Byte) (hr : rawRecord data = Except.ok (num, raw, rest)) :
    ∃ p, classifyWith (Message.Unmarshal []) raw = some p ∧
      Message.Unmarshal m data = Message.Unmarshal (m ++ [Record.mk num p]) rest := by
  obtain ⟨pre, hsplit, hpl, -, -, -, hval, -, -⟩ := rawRecord_ok data num raw rest hr
  have hlen : data.length = pre.length + rest.length := by
    rw [hsplit, List.length_append]
  obtain ⟨f, hf⟩ : ∃ f, data.length = f + 1 := ⟨data.length - 1, by omega⟩
  have hcl := classifyWith_fuel f data num raw rest hr (by omega)
  obtain ⟨r, hres⟩ := UnmarshalFuel_total m data
  have hstep : Message.Unmarshal m data =
      match classifyWith (Message.Unmarshal []) raw with
      | none => none
      | some p => UnmarshalFuel f (m ++ [Record.mk num p]) rest := by
    unfold Message.Unmarshal
    rw [hf, UnmarshalFuel_succ, if_pos (by omega), hr]
    simp only [hcl]
    rfl
  cases hc : classifyWith (Message.Unmarshal []) raw with
  | none =>
    rw [hc] at hstep
    rw [hres] at hstep
    simp at hstep
  | some p =>
    refine ⟨p, rfl, ?_⟩
    rw [hstep, hc]
    exact UnmarshalFuel_eq f _ rest (by omega)

/-- The decoder only appends: its result on `m` is `m` followed by its result
on an empty message, with the same error. -/
theorem Unmarshal_acc (data : List Byte) :
    ∃ recs e, ∀ m, Message.Unmarshal m data = some (m ++ recs, e) := by
  obtain ⟨n, hn⟩ : ∃ n, data.length = n := ⟨_, rfl⟩
  induction n using Nat.strong_induction_on generalizing data with
  | _ n ih =>
    by_cases hd : data.length ≥ 1
    · cases hr : rawRecord data with
      | error err =>
        exact ⟨[], some err, fun m => by rw [Unmarshal_error m data err hd hr]; simp⟩
      | ok res =>
        obtain ⟨num, raw, rest⟩ := res
        obtain ⟨pre, hsplit, hpl, -, -, -, -, -, -⟩ := rawRecord_ok data num raw rest hr
        have hlen : data.length = pre.length + rest.length := by
          rw [hsplit, List.length_append]
        obtain ⟨p, hp, -⟩ := Unmarshal_ok [] data num raw rest hr
        obtain ⟨recs, e, hrec⟩ := ih rest.length (by omega) rest rfl
        refine ⟨Record.mk num p :: recs, e, fun m => ?_⟩
        obtain ⟨p', hp', hstep⟩ := Unmarshal_ok m data num raw rest hr
        rw [hp] at hp'
        cases hp'
        rw [hstep, hrec]
        simp
    · have hd' : data = [] := List.length_eq_zero.mp (by omega)
      subst hd'
      exact ⟨[], none, fun m => by rw [Unmarshal_nil]; simp⟩

theorem Unmarshal_append (m : Message) (data : List Byte) (recs : Message)
    (e : Option Error) (h : Message.Unmarshal [] data = some (recs, e)) :
    Message.Unmarshal m data = some (m ++ recs, e) := by
  obtain ⟨recs', e', hacc⟩ := Unmarshal_acc data
  have h0 := hacc []
  rw [h] at h0
  simp only [List.nil_append, Option.some.injEq, Prod.mk.injEq] at h0
  obtain ⟨rfl, rfl⟩ := h0
  exact hacc m

/-- A record read that succeeds puts its record in front of what the rest of
`data` decodes to. -/
theorem Unmarshal_cons (data : List Byte) (num : Int) (raw : Raw) (rest : List Byte)
    (hr : rawRecord data = Except.ok (num, raw, rest)) :
    ∃ p recs e, classifyWith (Message.Unmarshal []) raw = some p ∧
      Message.Unmarshal [] rest = some (recs, e) ∧
      Message.Unmarshal [] data = some (Record.mk num p :: recs, e) := by
  obtain ⟨p, hp, hstep⟩ := Unmarshal_ok [] data num raw rest hr
  obtain ⟨⟨recs, e⟩, hrest⟩ := UnmarshalFuel_total [] rest
  refine ⟨p, recs, e, hp, hrest, ?_⟩
  rw [hstep, Unmarshal_append _ rest recs e hrest]
  rfl

/-! ## Encoder lemmas -/

theorem AppendTag_eq (b : List Byte) (num : Int) (typ : Nat) :
    AppendTag b num typ = b ++ AppendTag [] num typ := by
  simp [AppendTag, AppendVarint]

theorem AppendBytes_eq (b v : List Byte) : AppendBytes b v = b ++ AppendBytes [] v := by
  simp [AppendBytes, AppendVarint]

theorem AppendFixed32_eq (b : List Byte) (v : Nat) :
    AppendFixed32 b v = b ++ AppendFixed32 [] v := by
  simp [AppendFixed32]

theorem AppendFixed64_eq (b : List Byte) (v : Nat) :
    AppendFixed64 b v = b ++ AppendFixed64 [] v := by
  simp [AppendFixed64]

/-- Every `Append` method only appends to the buffer it is given. -/
theorem Payload.Append_eq (p : Payload) (data : List Byte) (num : Int) :
    Payload.Append p data num = data ++ Payload.Append p [] num := by
  cases p with
  | Varint v =>
    simp only [Payload.Append, Varint.Append]
    rw [AppendVarint_eq, AppendTag_eq, AppendVarint_eq (AppendTag [] num VarintType)]
    simp
  | I32 v =>
    simp only [Payload.Append, I32.Append]
    rw [AppendFixed32_eq, AppendTag_eq, AppendFixed32_eq (AppendTag [] num Fixed32Type)]
    simp
  | I64 v =>
    simp only [Payload.Append, I64.Append]
    rw [AppendFixed64_eq, AppendTag_eq, AppendFixed64_eq (AppendTag [] num Fixed64Type)]
    simp
  | Bytes b =>
    simp only [Payload.Append, Bytes.Append]
    rw [AppendBytes_eq, AppendTag_eq, AppendBytes_eq (AppendTag [] num BytesType)]
    simp
  | LenPrefix b m =>
    simp only [Payload.Append, LenPrefix.Append]
    rw [AppendBytes_eq, AppendTag_eq, AppendBytes_eq (AppendTag [] num BytesType)]
    simp
  | Message m =>
    simp only [Payload.Append]
    rw [AppendBytes_eq, AppendTag_eq, AppendBytes_eq (AppendTag [] num BytesType)]
    simp

theorem Append_Message_eq (m : Message) (data : List Byte) (num : Int) :
    Payload.Append (Payload.Message m) data num = Message.Append m data num := rfl

theorem marshalLoop_eq (m : List Record) (data : List Byte) :
    marshalLoop m data = data ++ marshalLoop m [] := by
  induction m generalizing data with
  | nil => simp [marshalLoop]
  | cons r rest ih =>
    cases r with
    | mk num p =>
      simp only [marshalLoop]
      rw [ih, ih (Payload.Append p [] num), Payload.Append_eq]
      simp

theorem Marshal_nil : Message.Marshal [] = [] := rfl

theorem Marshal_cons (num : Int) (p : Payload) (m : Message) :
    Message.Marshal (Record.mk num p :: m) = Payload.Append p [] num ++ Message.Marshal m := by
  unfold Message.Marshal
  simp only [marshalLoop]
  rw [marshalLoop_eq]

theorem Marshal_append (m1 m2 : Message) :
    Message.Marshal (m1 ++ m2) = Message.Marshal m1 ++ Message.Marshal m2 := by
  induction m1 with
  | nil => simp [Marshal_nil]
  | cons r rest ih =>
    cases r with
    | mk num p =>
      rw [List.cons_append, Marshal_cons, Marshal_cons, ih, List.append_assoc]

/-- Whatever payload the decoder builds from a value read, the encoder writes
the value read. -/
theorem Append_classifyWith (dec : List Byte → Option (Message × Option Error)) (raw : Raw)
    (p : Payload) (h : classifyWith dec raw = some p) (num : Int) :
    Payload.Append p [] num = raw.enc num := by
  cases raw with
  | varint v =>
    simp only [classifyWith, Option.some.injEq] at h
    subst h
    simp [Payload.Append, Varint.Append, Raw.enc, Raw.wireType, Raw.encPayload, AppendVarint,
      AppendTag]
  | i32 v =>
    simp only [classifyWith, Option.some.injEq] at h
    subst h
    simp [Payload.Append, I32.Append, Raw.enc, Raw.wireType, Raw.encPayload, AppendFixed32,
      AppendTag]
  | i64 v =>
    simp only [classifyWith, Option.some.injEq] at h
    subst h
    simp [Payload.Append, I64.Append, Raw.enc, Raw.wireType, Raw.encPayload, AppendFixed64,
      AppendTag]
  | bytes value =>
    have hb : Payload.Append (Payload.Bytes value) [] num = (Raw.bytes value).enc num := by
      simp [Payload.Append, Bytes.Append, Raw.enc, Raw.wireType, Raw.encPayload, AppendBytes,
        AppendVarint, AppendTag]
    simp only [classifyWith, unmarshalWith] at h
    split at h
    · split at h
      · simp at h
      · simp only [Option.some.injEq] at h
        subst h
        exact hb
      · simp only [Option.some.injEq] at h
        subst h
        exact hb
    · simp only [Option.some.injEq] at h
      subst h
      exact hb

/-! ## The speculative helper -/

theorem unmarshal_nil : unmarshal [] = some (Payload.Bytes []) := by
  simp [unmarshal, unmarshalWith]

theorem unmarshal_ok (s : List Byte) (P : Message) (hs : 1 ≤ s.length)
    (h : Message.Unmarshal [] s = some (P, none)) :
    unmarshal s = some (Payload.LenPrefix s P) := by
  unfold unmarshal unmarshalWith
  rw [if_pos hs, h]

theorem unmarshal_err (s : List Byte) (P : Message) (e : Error)
    (h : Message.Unmarshal [] s = some (P, some e)) :
    unmarshal s = some (Payload.Bytes s) := by
  unfold unmarshal unmarshalWith
  rw [h]
  split <;> rfl

/-- A decode without error yields a record exactly when the input is not empty. -/
theorem Unmarshal_length_pos (s : List Byte) (P : Message)
    (h : Message.Unmarshal [] s = some (P, none)) : 1 ≤ P.length ↔ 1 ≤ s.length := by
  by_cases hs : 1 ≤ s.length
  · cases hr : rawRecord s with
    | error err =>
      rw [Unmarshal_error [] s err hs hr] at h
      simp at h
    | ok res =>
      obtain ⟨num, raw, rest⟩ := res
      obtain ⟨p, recs, e, -, -, h3⟩ := Unmarshal_cons s num raw rest hr
      rw [h] at h3
      simp only [Option.some.injEq, Prod.mk.injEq] at h3
      rw [h3.1]
      simp [hs]
  · have hd : s = [] := List.length_eq_zero.mp (by omega)
    subst hd
    rw [Unmarshal_nil] at h
    simp only [Option.some.injEq, Prod.mk.injEq, and_true] at h
    subst h
    simp

/-! ## Decoding a concatenation -/

/-- If `P` decodes without error, decoding `P ++ X` is decoding `X` after the
records of `P`. -/
theorem Unmarshal_concat (P : List Byte) (M : Message)
    (h : Message.Unmarshal [] P = some (M, none)) (m : Message) (X : List Byte) :
    Message.Unmarshal m (P ++ X) = Message.Unmarshal (m ++ M) X := by
  obtain ⟨n, hn⟩ : ∃ n, P.length = n := ⟨_, rfl⟩
  induction n using Nat.strong_induction_on generalizing P M m with
  | _ n ih =>
    by_cases hd : P.length ≥ 1
    · cases hr : rawRecord P with
      | error err =>
        rw [Unmarshal_error [] P err hd hr] at h
        simp at h
      | ok res =>
        obtain ⟨num, raw, rest⟩ := res
        obtain ⟨pre, hsplit, hpl, -, -, -, -, hstab, -⟩ := rawRecord_ok P num raw rest hr
        have hlen : P.length = pre.length + rest.length := by
          rw [hsplit, List.length_append]
        obtain ⟨p, recs, e, hp, hrest, hall⟩ := Unmarshal_cons P num raw rest hr
        rw [h] at hall
        simp only [Option.some.injEq, Prod.mk.injEq] at hall
        obtain ⟨rfl, rfl⟩ := hall
        have hr' : rawRecord (P ++ X) = Except.ok (num, raw, rest ++ X) := by
          have := hstab (rest ++ X)
          rw [← List.append_assoc, ← hsplit] at this
          exact this
        obtain ⟨p', hp', hstep⟩ := Unmarshal_ok m (P ++ X) num raw (rest ++ X) hr'
        rw [hp] at hp'
        cases hp'
        rw [hstep, ih rest.length (by omega) rest recs hrest _ rfl]
        simp
    · have hd' : P = [] := List.length_eq_zero.mp (by omega)
      subst hd'
      rw [Unmarshal_nil] at h
      simp only [Option.some.injEq, Prod.mk.injEq, and_true] at h
      subst h
      simp

/-- What the decoder returned without error, re-encoded, decodes to the same
message. -/
theorem Unmarshal_Marshal_decoded (B : List Byte) (M : Message)
    (h : Message.Unmarshal [] B = some (M, none)) :
    Message.Unmarshal [] (Message.Marshal M) = some (M, none) := by
  obtain ⟨n, hn⟩ : ∃ n, B.length = n := ⟨_, rfl⟩
  induction n using Nat.strong_induction_on generalizing B M with
  | _ n ih =>
    by_cases hd : B.length ≥ 1
    · cases hr : rawRecord B with
      | error err =>
        rw [Unmarshal_error [] B err hd hr] at h
        simp at h
      | ok res =>
        obtain ⟨num, raw, rest⟩ := res
        obtain ⟨pre, hsplit, hpl, h1, h2, hrange, -, -, -⟩ := rawRecord_ok B num raw rest hr
        have hlen : B.length = pre.length + rest.length := by
          rw [hsplit, List.length_append]
        obtain ⟨p, recs, e, hp, hrest, hall⟩ := Unmarshal_cons B num raw rest hr
        rw [h] at hall
        simp only [Option.some.injEq, Prod.mk.injEq] at hall
        obtain ⟨rfl, rfl⟩ := hall
        have ih' := ih rest.length (by omega) rest recs hrest rfl
        rw [Marshal_cons, Append_classifyWith _ raw p hp num]
        have hr' := rawRecord_enc num raw h1 h2 hrange (Message.Marshal recs)
        obtain ⟨p', recs', e', hp', hrest', hall'⟩ := Unmarshal_cons _ num raw _ hr'
        rw [hp] at hp'
        cases hp'
        rw [ih'] at hrest'
        simp only [Option.some.injEq, Prod.mk.injEq] at hrest'
        obtain ⟨rfl, rfl⟩ := hrest'
        exact hall'
    · have hd' : B = [] := List.length_eq_zero.mp (by omega)
      subst hd'
      rw [Unmarshal_nil] at h
      simp only [Option.some.injEq, Prod.mk.injEq, and_true] at h
      subst h
      exact Unmarshal_nil []

/-! ## Canonical inputs -/

theorem canonicalFuel_stable (f : Nat) (data : List Byte) (h : data.length ≤ f)
    (f' : Nat) (h' : data.length ≤ f') : canonicalFuel f data = canonicalFuel f' data := by
  induction f generalizing data f' with
  | zero =>
    have hd : data = [] := List.length_eq_zero.mp (by omega)
    subst hd
    cases f' <;> simp [canonicalFuel]
  | succ f ih =>
    by_cases hd : data.length ≥ 1
    · obtain ⟨g, rfl⟩ : ∃ g, f' = g + 1 := ⟨f' - 1, by omega⟩
      simp only [canonicalFuel, if_pos hd]
      cases hr : rawRecord data with
      | error err => rfl
      | ok res =>
        obtain ⟨num, raw, rest⟩ := res
        obtain ⟨pre, hsplit, hpl, -⟩ := rawRecord_ok data num raw rest hr
        have hlen : data.length = pre.length + rest.length := by
          rw [hsplit, List.length_append]
        simp only
        rw [ih rest (by omega) g (by omega)]
    · have hd' : data = [] := List.length_eq_zero.mp (by omega)
      subst hd'
      cases f' <;> simp [canonicalFuel]

/-- A canonical input starts with a minimal record and goes on canonically. -/
theorem Canonical_step (data : List Byte) (num : Int) (raw : Raw) (rest : List Byte)
    (hr : rawRecord data = Except.ok (num, raw, rest)) (hc : Canonical data) :
    minimalRecord data = true ∧ Canonical rest := by
  obtain ⟨pre, hsplit, hpl, -⟩ := rawRecord_ok data num raw rest hr
  have hlen : data.length = pre.length + rest.length := by
    rw [hsplit, List.length_append]
  obtain ⟨f, hf⟩ : ∃ f, data.length = f + 1 := ⟨data.length - 1, by omega⟩
  unfold Canonical at hc ⊢
  rw [hf] at hc
  simp only [canonicalFuel, if_pos (show data.length ≥ 1 by omega), hr, Bool.and_eq_true] at hc
  refine ⟨hc.1, ?_⟩
  rw [← hc.2]
  exact canonicalFuel_stable _ rest (le_refl _) f (by omega)

/-! ## Round trip -/

/-- C1, as stated, fails: the bytes `08 80 00` (field 1, the varint `0` padded
with a redundant continuation byte) decode without error to
`Message{Record{1, Varint(0)}}`, whose `Marshal` is `08 00`, not the input. -/
theorem C1_round_trip_counterexample :
    Message.Unmarshal [] [0x08, 0x80, 0x00] = some ([Record.mk 1 (Payload.Varint 0)], none) ∧
      Message.Marshal [Record.mk 1 (Payload.Varint 0)] = [0x08, 0x00] ∧
      Message.Marshal [Record.mk 1 (Payload.Varint 0)] ≠ [0x08, 0x80, 0x00] :=
  ⟨rfl, by decide, by decide⟩

/-- C1, amended: for every byte sequence `B` whose top-level tags, varint
values and length prefixes are minimally encoded, if `Unmarshal(B)` on an empty
Message returns no error and leaves `M`, then `M.Marshal()` equals `B` byte for
byte. Nothing is assumed about the bytes inside length-delimited spans. -/
theorem C1_round_trip_canonical (B : List Byte) (M : Message)
    (h : Message.Unmarshal [] B = some (M, none)) (hc : Canonical B) :
    Message.Marshal M = B := by
  obtain ⟨n, hn⟩ : ∃ n, B.length = n := ⟨_, rfl⟩
  induction n using Nat.strong_induction_on generalizing B M with
  | _ n ih =>
    by_cases hd : B.length ≥ 1
    · cases hr : rawRecord B with
      | error err =>
        rw [Unmarshal_error [] B err hd hr] at h
        simp at h
      | ok res =>
        obtain ⟨num, raw, rest⟩ := res
        obtain ⟨pre, hsplit, hpl, -, -, -, -, -, hmin⟩ := rawRecord_ok B num raw rest hr
        have hlen : B.length = pre.length + rest.length := by
          rw [hsplit, List.length_append]
        obtain ⟨p, recs, e, hp, hrest, hall⟩ := Unmarshal_cons B num raw rest hr
        rw [h] at hall
        simp only [Option.some.injEq, Prod.mk.injEq] at hall
        obtain ⟨rfl, rfl⟩ := hall
        obtain ⟨hm, hcr⟩ := Canonical_step B num raw rest hr hc
        rw [Marshal_cons, Append_classifyWith _ raw p hp num,
          ih rest.length (by omega) rest recs hrest hcr rfl, ← hmin hm, ← hsplit]
    · have hd' : B = [] := List.length_eq_zero.mp (by omega)
      subst hd'
      rw [Unmarshal_nil] at h
      simp only [Option.some.injEq, Prod.mk.injEq, and_true] at h
      subst h
      rfl

/-- C1 amended, at the input `12 03 08 80 00`: the top level is minimal, the
span holds a padded varint, and the five bytes come back. -/
theorem C1_round_trip_canonical_witness :
    Message.Unmarshal [] [0x12, 0x03, 0x08, 0x80, 0x00]
        = some ([Record.mk 2 (Payload.LenPrefix [0x08, 0x80, 0x00]
            [Record.mk 1 (Payload.Varint 0)])], none) ∧
      Canonical [0x12, 0x03, 0x08, 0x80, 0x00] ∧
      Message.Marshal [Record.mk 2 (Payload.LenPrefix [0x08, 0x80, 0x00]
        [Record.mk 1 (Payload.Varint 0)])] = [0x12, 0x03, 0x08, 0x80, 0x00] :=
  ⟨rfl, by decide, C1_round_trip_canonical _ _ rfl (by decide)⟩

/-- C2: if `Unmarshal` decodes `B` without error into `M` (from an empty
Message), then `E = M.Marshal()` also decodes without error, into some `M'`,
and `M'.Marshal()` equals `E`. -/
theorem C2_idempotent_reencode (B : List Byte) (M : Message)
    (h : Message.Unmarshal [] B = some (M, none)) :
    ∃ M', Message.Unmarshal [] (Message.Marshal M) = some (M', none) ∧
      Message.Marshal M' = Message.Marshal M :=
  ⟨M, Unmarshal_Marshal_decoded B M h, rfl⟩

/-- C2 at the padded input `08 80 00`, whose re-encoding is `08 00`. -/
theorem C2_idempotent_reencode_witness :
    Message.Unmarshal [] [0x08, 0x80, 0x00] = some ([Record.mk 1 (Payload.Varint 0)], none) ∧
      ∃ M', Message.Unmarshal [] (Message.Marshal [Record.mk 1 (Payload.Varint 0)])
          = some (M', none) ∧
        Message.Marshal M' = Message.Marshal [Record.mk 1 (Payload.Varint 0)] :=
  ⟨rfl, C2_idempotent_reencode [0x08, 0x80, 0x00] _ rfl⟩

/-! ## Classification of length-delimited spans -/

/-- C3: in every loop iteration that reads a length-delimited span `s` (at any
depth, since nested decodes run the same loop) the record's payload is
`unmarshal s`; that payload is `LenPrefix{Bytes: b, Message: P}` if and only if
`b` is `s` and `s`, decoded on its own from an empty Message, gives no error,
the Message `P` and at least one Record; in every other case it is `Bytes(s)`.
Content `08 01` gives `LenPrefix` with parsed `Message{Record{1, Varint(1)}}`,
content `80` gives `Bytes`. -/
theorem C3_ambiguity_classification (s : List Byte) :
    (∀ (m : Message) (data : List Byte) (num : Int) (n k : Int),
        ConsumeTag data = (num, BytesType, n) → 0 ≤ n →
        ConsumeBytes (data.drop n.toNat) = (s, k) → 0 ≤ k →
        ∃ p, unmarshal s = some p ∧
          Message.Unmarshal m data
            = Message.Unmarshal (m ++ [Record.mk num p]) ((data.drop n.toNat).drop k.toNat)) ∧
      (∀ (b : List Byte) (P : Message),
        unmarshal s = some (Payload.LenPrefix b P) ↔
          (b = s ∧ Message.Unmarshal [] s = some (P, none) ∧ 1 ≤ P.length)) ∧
      ((¬ ∃ P : Message, Message.Unmarshal [] s = some (P, none) ∧ 1 ≤ P.length) →
        unmarshal s = some (Payload.Bytes s)) ∧
      unmarshal [0x08, 0x01]
        = some (Payload.LenPrefix [0x08, 0x01] [Record.mk 1 (Payload.Varint 1)]) ∧
      unmarshal [0x80] = some (Payload.Bytes [0x80]) := by
  refine ⟨?_, ?_, ?_, rfl, rfl⟩
  · intro m data num n k ht hn hb hk
    have hr : rawRecord data
        = Except.ok (num, Raw.bytes s, (data.drop n.toNat).drop k.toNat) := by
      unfold rawRecord
      rw [ht]
      simp only [ParseError_of_nonneg n hn]
      unfold rawPayload
      rw [if_pos rfl, hb]
      simp only [ParseError_of_nonneg k hk]
    obtain ⟨p, hp, hstep⟩ := Unmarshal_ok m data num (Raw.bytes s) _ hr
    exact ⟨p, hp, hstep⟩
  · intro b P
    obtain ⟨⟨M, e⟩, hM⟩ := UnmarshalFuel_total [] s
    constructor
    · intro h
      by_cases hs : 1 ≤ s.length
      · cases e with
        | none =>
          rw [unmarshal_ok s M hs hM] at h
          simp only [Option.some.injEq, Payload.LenPrefix.injEq] at h
          obtain ⟨rfl, rfl⟩ := h
          exact ⟨rfl, hM, (Unmarshal_length_pos s M hM).2 hs⟩
        | some err =>
          rw [unmarshal_err s M err hM] at h
          simp at h
      · have hd : s = [] := List.length_eq_zero.mp (by omega)
        subst hd
        rw [unmarshal_nil] at h
        simp at h
    · rintro ⟨rfl, hP, hl⟩
      exact unmarshal_ok b P ((Unmarshal_length_pos b P hP).1 hl) hP
  · intro hno
    obtain ⟨⟨M, e⟩, hM⟩ := UnmarshalFuel_total [] s
    cases e with
    | none =>
      by_cases hs : 1 ≤ s.length
      · exact absurd ⟨M, hM, (Unmarshal_length_pos s M hM).2 hs⟩ hno
      · have hd : s = [] := List.length_eq_zero.mp (by omega)
        subst hd
        exact unmarshal_nil
    | some err => exact unmarshal_err s M err hM

/-! ## Errors -/

/-- C4, as stated, fails: on `08 01 0b` (a varint record, then a start-group
tag) `Unmarshal` on an empty Message returns the reserved-wire-type error and
the Message holds the record decoded before the error. -/
theorem C4_atomic_failure_counterexample :
    Message.Unmarshal [] [0x08, 0x01, 0x0b]
        = some ([Record.mk 1 (Payload.Varint 1)],
            some (Error.New "cannot parse reserved wire type")) ∧
      ([Record.mk 1 (Payload.Varint 1)] : Message) ≠ [] :=
  ⟨rfl, by simp⟩

/-- C4, amended: if `m.Unmarshal(B)` returns an error, the records `m` held
before the call are still its first records, in order, and they are followed
by the records of the leading part of `B` that decoded before the error:
`B = B1 ++ B2` where `B1` decodes without error to exactly the records added.
The partial Message is dropped only by the speculative caller `unmarshal`,
which returns `Bytes(B)`. -/
theorem C4_failure_keeps_decoded_records (m : Message) (B : List Byte) (m' : Message)
    (err : Error) (h : Message.Unmarshal m B = some (m', some err)) :
    (∃ (recs : Message) (B1 B2 : List Byte), m' = m ++ recs ∧ B = B1 ++ B2 ∧
        Message.Unmarshal [] B1 = some (recs, none)) ∧
      unmarshal B = some (Payload.Bytes B) := by
  obtain ⟨recs, e, hacc⟩ := Unmarshal_acc B
  have hm := hacc m
  rw [h] at hm
  simp only [Option.some.injEq, Prod.mk.injEq] at hm
  obtain ⟨rfl, rfl⟩ := hm
  have h0 : Message.Unmarshal [] B = some (recs, some err) := by
    have := hacc []
    simpa using this
  refine ⟨⟨recs, ?_⟩, unmarshal_err B recs err h0⟩
  clear h hacc
  obtain ⟨n, hn⟩ : ∃ n, B.length = n := ⟨_, rfl⟩
  induction n using Nat.strong_induction_on generalizing B recs with
  | _ n ih =>
    by_cases hd : B.length ≥ 1
    · cases hr : rawRecord B with
      | error err' =>
        rw [Unmarshal_error [] B err' hd hr] at h0
        simp only [Option.some.injEq, Prod.mk.injEq] at h0
        obtain ⟨rfl, -⟩ := h0
        exact ⟨[], B, rfl, rfl, Unmarshal_nil []⟩
      | ok res =>
        obtain ⟨num, raw, rest⟩ := res
        obtain ⟨pre, hsplit, hpl, -, -, -, -, hstab, -⟩ := rawRecord_ok B num raw rest hr
        have hlen : B.length = pre.length + rest.length := by
          rw [hsplit, List.length_append]
        obtain ⟨p, recs', e, hp, hrest, hall⟩ := Unmarshal_cons B num raw rest hr
        rw [h0] at hall
        simp only [Option.some.injEq, Prod.mk.injEq] at hall
        obtain ⟨rfl, rfl⟩ := hall
        obtain ⟨R1, R2, -, hR, hdec⟩ := ih rest.length (by omega) rest recs' hrest rfl
        refine ⟨pre ++ R1, R2, rfl, by rw [hsplit, hR, List.append_assoc], ?_⟩
        obtain ⟨p', recs'', e', hp', hrest', hall'⟩ :=
          Unmarshal_cons (pre ++ R1) num raw R1 (hstab R1)
        rw [hp] at hp'
        cases hp'
        rw [hdec] at hrest'
        simp only [Option.some.injEq, Prod.mk.injEq] at hrest'
        obtain ⟨rfl, rfl⟩ := hrest'
        exact hall'
    · have hd' : B = [] := List.length_eq_zero.mp (by omega)
      subst hd'
      rw [Unmarshal_nil] at h0
      simp at h0

/-- C4 amended, at `08 01 0b` decoded into a Message that already holds a
record. -/
theorem C4_failure_keeps_decoded_records_witness :
    Message.Unmarshal [Record.mk 7 (Payload.I32 9)] [0x08, 0x01, 0x0b]
        = some ([Record.mk 7 (Payload.I32 9), Record.mk 1 (Payload.Varint 1)],
            some (Error.New "cannot parse reserved wire type")) ∧
      ((∃ (recs : Message) (B1 B2 : List Byte),
          [Record.mk 7 (Payload.I32 9), Record.mk 1 (Payload.Varint 1)]
            = [Record.mk 7 (Payload.I32 9)] ++ recs ∧
          [0x08, 0x01, 0x0b] = B1 ++ B2 ∧ Message.Unmarshal [] B1 = some (recs, none)) ∧
        unmarshal [0x08, 0x01, 0x0b] = some (Payload.Bytes [0x08, 0x01, 0x0b])) :=
  ⟨rfl, C4_failure_keeps_decoded_records [Record.mk 7 (Payload.I32 9)] [0x08, 0x01, 0x0b] _ _ rfl⟩

/-- C5: for bytes `P ++ T ++ R` where `P` decodes without error on its own, `T`
is exactly one tag varint with a valid field number (`ConsumeTag` accepts it and
reads all of `T`) and wire type 3, 4, 6 or 7, and `R` is arbitrary, `Unmarshal`
returns the error "cannot parse reserved wire type". -/
theorem C5_reserved_wire_type_rejected (m : Message) (P T R : List Byte) (M : Message)
    (num : Int) (wt : Nat) (hP : Message.Unmarshal [] P = some (M, none))
    (hT : ConsumeTag T = (num, wt, (T.length : Int)))
    (hwt : wt = 3 ∨ wt = 4 ∨ wt = 6 ∨ wt = 7) :
    Message.Unmarshal m (P ++ T ++ R)
      = some (m ++ M, some (Error.New "cannot parse reserved wire type")) := by
  rw [List.append_assoc, Unmarshal_concat P M hP m (T ++ R)]
  have hTl : 1 ≤ (T.length : Int) :=
    (ConsumeVarint_ok T _ _ (ConsumeTag_ok T num wt _ hT (by omega)).1 (by omega)).1
  apply Unmarshal_error
  · rw [List.length_append]; omega
  · exact rawRecord_reserved T num wt hT hwt R

/-- C5 at `P = 08 01`, `T = 0b` (field 1, start-group), `R = ff`. -/
theorem C5_reserved_wire_type_rejected_witness :
    Message.Unmarshal [] [0x08, 0x01] = some ([Record.mk 1 (Payload.Varint 1)], none) ∧
      ConsumeTag [0x0b] = (1, 3, 1) ∧
      Message.Unmarshal [] ([0x08, 0x01] ++ [0x0b] ++ [0xff])
        = some ([] ++ [Record.mk 1 (Payload.Varint 1)],
            some (Error.New "cannot parse reserved wire type")) :=
  ⟨rfl, rfl, C5_reserved_wire_type_rejected [] [0x08, 0x01] [0x0b] [0xff] _ 1 3 rfl rfl
    (Or.inl rfl)⟩

/-- C6: for a field number `n` in `1..2^31-1`, a span `s` (of a length a Go
slice can have) whose decode on its own returns an error, and bytes `R` that
decode without error to `M_R`, decoding
`tag(n, BytesType) ++ varint(len s) ++ s ++ R` from an empty Message returns no
error and yields `Record{n, Bytes(s)}` followed by exactly the records of
`M_R`. -/
theorem C6_speculative_failure_not_surfaced (n : Int) (s R : List Byte) (Ms MR : Message)
    (err : Error) (h1 : 1 ≤ n) (h2 : n ≤ 2 ^ 31 - 1) (hlen : s.length < 2 ^ 64)
    (hs : Message.Unmarshal [] s = some (Ms, some err))
    (hR : Message.Unmarshal [] R = some (MR, none)) :
    Message.Unmarshal [] (AppendTag [] n BytesType ++ AppendVarint [] s.length ++ s ++ R)
      = some (Record.mk n (Payload.Bytes s) :: MR, none) := by
  have hr := rawRecord_enc n (Raw.bytes s) h1 (by omega) hlen R
  have he : (Raw.bytes s).enc n = AppendTag [] n BytesType ++ AppendVarint [] s.length ++ s := by
    simp [Raw.enc, Raw.wireType, Raw.encPayload, AppendBytes, AppendVarint]
  rw [he] at hr
  obtain ⟨p, recs, e, hp, hrest, hall⟩ := Unmarshal_cons _ n (Raw.bytes s) R hr
  rw [hR] at hrest
  simp only [Option.some.injEq, Prod.mk.injEq] at hrest
  obtain ⟨rfl, rfl⟩ := hrest
  have hp' : classifyWith (Message.Unmarshal []) (Raw.bytes s) = some (Payload.Bytes s) :=
    unmarshal_err s Ms err hs
  rw [hp'] at hp
  cases hp
  exact hall

/-- C6 at `n = 1`, `s = 80` (a stray continuation byte), `R = 08 01`. -/
theorem C6_speculative_failure_not_surfaced_witness :
    Message.Unmarshal [] [0x80] = some ([], some Error.ErrUnexpectedEOF) ∧
      Message.Unmarshal [] [0x08, 0x01] = some ([Record.mk 1 (Payload.Varint 1)], none) ∧
      Message.Unmarshal []
          (AppendTag [] 1 BytesType ++ AppendVarint [] [(0x80 : Byte)].length ++ [0x80]
            ++ [0x08, 0x01])
        = some ([Record.mk 1 (Payload.Bytes [0x80]), Record.mk 1 (Payload.Varint 1)], none) :=
  ⟨rfl, rfl, C6_speculative_failure_not_surfaced 1 [0x80] [0x08, 0x01] _ _ _ (by decide)
    (by decide) (by decide) rfl rfl⟩

/-! ## Encoder claims -/

/-- C7: for every `LenPrefix` (bytes `b`, parsed Message `m1`), field number `n`
and buffer `d`, `Append` gives `d ++ tag(n, BytesType) ++ varint(len b) ++ b`,
which is what `Bytes(b).Append(d, n)` gives; the parsed Message plays no part:
another parsed Message `m2` gives the same output, also inside `Marshal`. -/
theorem C7_raw_bytes_win (b : List Byte) (m1 m2 : Message) (d : List Byte) (n : Int) :
    LenPrefix.Append b m1 d n = d ++ AppendTag [] n BytesType ++ AppendVarint [] b.length ++ b ∧
      LenPrefix.Append b m1 d n = Bytes.Append b d n ∧
      LenPrefix.Append b m1 d n = LenPrefix.Append b m2 d n ∧
      Payload.Append (Payload.LenPrefix b m1) d n = Payload.Append (Payload.LenPrefix b m2) d n ∧
      ∀ pre post : Message,
        Message.Marshal (pre ++ [Record.mk n (Payload.LenPrefix b m1)] ++ post)
          = Message.Marshal (pre ++ [Record.mk n (Payload.LenPrefix b m2)] ++ post) := by
  refine ⟨?_, rfl, rfl, rfl, ?_⟩
  · unfold LenPrefix.Append
    rw [AppendBytes_eq, AppendTag_eq]
    simp [AppendBytes, AppendVarint]
  · intro pre post
    simp only [Marshal_append, Marshal_cons, Payload.Append, LenPrefix.Append]

theorem littleEndian_four (v : Nat) : littleEndian 4 v = AppendFixed32 [] v := by
  simp only [littleEndian, AppendFixed32, List.nil_append, Nat.div_div_eq_div_mul]
  norm_num

theorem littleEndian_eight (v : Nat) : littleEndian 8 v = AppendFixed64 [] v := by
  simp only [littleEndian, AppendFixed64, List.nil_append, Nat.div_div_eq_div_mul]
  norm_num

theorem Append_eq_encRecord (num : Int) (p : Payload) :
    Payload.Append p [] num = encRecord (Record.mk num p) := by
  cases p with
  | Varint v =>
    simp only [Payload.Append, Varint.Append, encRecord, tag, varint]
    rw [AppendVarint_eq]
    rfl
  | I32 v =>
    simp only [Payload.Append, I32.Append, encRecord, tag, littleEndian_four]
    rw [AppendFixed32_eq]
    rfl
  | I64 v =>
    simp only [Payload.Append, I64.Append, encRecord, tag, littleEndian_eight]
    rw [AppendFixed64_eq]
    rfl
  | Bytes b =>
    simp only [Payload.Append, Bytes.Append, encRecord, tag, varint]
    rw [AppendBytes_eq]
    simp [AppendBytes, BytesType]
  | LenPrefix b m =>
    simp only [Payload.Append, LenPrefix.Append, encRecord, tag, varint]
    rw [AppendBytes_eq]
    simp [AppendBytes, BytesType]
  | Message m =>
    simp only [Payload.Append, encRecord, tag, varint, Message.Marshal]
    rw [AppendBytes_eq]
    simp [AppendBytes, BytesType]

/-- C8: for every Message `m`, whatever its nesting, `m.Marshal()` is the
concatenation in record order of the reference encodings of its records (tag
and varint; tag and 8 or 4 little-endian bytes; tag, length and bytes; tag,
length of the nested `Marshal()` and the nested `Marshal()`); hence `Marshal`
of a concatenation is the concatenation of the `Marshal`s and `Marshal` of the
empty Message is empty. -/
theorem C8_marshal_is_reference_encoder (m m1 m2 : Message) :
    Message.Marshal m = encMessage m ∧
      Message.Marshal (m1 ++ m2) = Message.Marshal m1 ++ Message.Marshal m2 ∧
      Message.Marshal [] = [] := by
  refine ⟨?_, Marshal_append m1 m2, rfl⟩
  induction m with
  | nil => rfl
  | cons r rest ih =>
    cases r with
    | mk num p => rw [Marshal_cons, ih, Append_eq_encRecord, encMessage]

/-! ## Accessor claims -/

theorem getLoop_collect {P : Type} (assertP : Payload → Option P) (num : Int) (m : Message)
    (acc : List P) :
    getLoop assertP num (fun acc v => (acc ++ [v], true)) m acc
      = acc ++ m.filterMap (fun r => if r.Number = num then assertP r.Payload else none) := by
  induction m generalizing acc with
  | nil => simp [getLoop]
  | cons r rest ih =>
    unfold getLoop
    by_cases hn : r.Number = num
    · rw [if_pos hn]
      cases hp : assertP r.Payload with
      | none =>
        simp only
        rw [ih, List.filterMap_cons, if_pos hn, hp]
      | some v =>
        simp only
        rw [ih, List.filterMap_cons, if_pos hn, hp]
        simp
    · rw [if_neg hn, ih, List.filterMap_cons, if_neg hn]

theorem get_toList {P : Type} (assertP : Payload → Option P) (num : Int) (m : Message) :
    (get assertP m num).toList
      = m.filterMap (fun r => if r.Number = num then assertP r.Payload else none) := by
  unfold iter.Seq.toList get
  rw [getLoop_collect]
  rfl

/-- C9: for every Message `m` and Number `n`, the full sequence of
`m.GetVarint(n)` is the list, in record order, of the values `v` of the records
`(n, Varint v)` of `m`; likewise `GetI32` for `I32` and `GetI64` for `I64`
payloads. Records numbered `n` of another payload kind are skipped, the
sequence is empty when no record is numbered `n`, and three `Varint` records
and one `Bytes` record numbered 5 give the three varint values in order. -/
theorem C9_typed_scalar_accessors (m : Message) (n : Int) :
    (Message.GetVarint m n).toList
        = m.filterMap (fun r =>
            if r.Number = n then
              (match r.Payload with
                | Payload.Varint v => some v
                | _ => none)
            else none) ∧
      (Message.GetI32 m n).toList
        = m.filterMap (fun r =>
            if r.Number = n then
              (match r.Payload with
                | Payload.I32 v => some v
                | _ => none)
            else none) ∧
      (Message.GetI64 m n).toList
        = m.filterMap (fun r =>
            if r.Number = n then
              (match r.Payload with
                | Payload.I64 v => some v
                | _ => none)
            else none) ∧
      ((∀ r ∈ m, r.Number ≠ n) →
        (Message.GetVarint m n).toList = [] ∧ (Message.GetI32 m n).toList = [] ∧
          (Message.GetI64 m n).toList = []) ∧
      (∀ (a b c : Nat) (bs : List Byte),
        (Message.GetVarint [Record.mk 5 (Payload.Varint a), Record.mk 5 (Payload.Bytes bs),
          Record.mk 5 (Payload.Varint b), Record.mk 5 (Payload.Varint c)] 5).toList
          = [a, b, c]) := by
  have hV : (fun r : Record => if r.Number = n then Payload.assertVarint r.Payload else none)
      = (fun r => if r.Number = n then
            (match r.Payload with
              | Payload.Varint v => some v
              | _ => none)
          else none) := by
    funext r
    split
    · cases r.Payload <;> rfl
    · rfl
  have h32 : (fun r : Record => if r.Number = n then Payload.assertI32 r.Payload else none)
      = (fun r => if r.Number = n then
            (match r.Payload with
              | Payload.I32 v => some v
              | _ => none)
          else none) := by
    funext r
    split
    · cases r.Payload <;> rfl
    · rfl
  have h64 : (fun r : Record => if r.Number = n then Payload.assertI64 r.Payload else none)
      = (fun r => if r.Number = n then
            (match r.Payload with
              | Payload.I64 v => some v
              | _ => none)
          else none) := by
    funext r
    split
    · cases r.Payload <;> rfl
    · rfl
  have e1 := get_toList Payload.assertVarint n m
  have e2 := get_toList Payload.assertI32 n m
  have e3 := get_toList Payload.assertI64 n m
  rw [hV] at e1
  rw [h32] at e2
  rw [h64] at e3
  refine ⟨e1, e2, e3, ?_, ?_⟩
  · intro hno
    have hnone : ∀ (f : Record → Option Nat),
        m.filterMap (fun r => if r.Number = n then f r else none) = [] := by
      intro f
      rw [List.filterMap_eq_nil_iff]
      intro r hr
      rw [if_neg (hno r hr)]
    exact ⟨e1.trans (hnone _), e2.trans (hnone _), e3.trans (hnone _)⟩
  · intro a b c bs
    rfl

theorem GetBytesLoop_collect (num : Int) (m : Message) (acc : List (List Byte)) :
    Message.GetBytesLoop num (fun acc v => (acc ++ [v], true)) m acc
      = acc ++ m.filterMap (fun r =>
          if r.Number = num then
            (match r.Payload with
              | Payload.Bytes b => some b
              | Payload.LenPrefix b _ => some b
              | _ => none)
          else none) := by
  induction m generalizing acc with
  | nil => simp [Message.GetBytesLoop]
  | cons r rest ih =>
    unfold Message.GetBytesLoop
    by_cases hn : r.Number = num
    · rw [if_pos hn, List.filterMap_cons, if_pos hn]
      cases hp : r.Payload <;> simp only [ih] <;> simp
    · rw [if_neg hn, ih, List.filterMap_cons, if_neg hn]

/-- C10: for every Message `m` and Number `n`, the full sequence of
`m.GetBytes(n)` is, in record order, for each record numbered `n`: its bytes
`b` if the payload is `Bytes(b)`, the raw bytes `p.Bytes` if it is a
`LenPrefix p`, and nothing for a `Varint`, `I32`, `I64` or `Message` payload;
records with other numbers contribute nothing. -/
theorem C10_get_bytes (m : Message) (n : Int) :
    (Message.GetBytes m n).toList
      = m.filterMap (fun r =>
          if r.Number = n then
            (match r.Payload with
              | Payload.Bytes b => some b
              | Payload.LenPrefix pBytes _ => some pBytes
              | Payload.Varint _ => none
              | Payload.I32 _ => none
              | Payload.I64 _ => none
              | Payload.Message _ => none)
          else none) := by
  unfold iter.Seq.toList Message.GetBytes
  rw [GetBytesLoop_collect, List.nil_append]
  congr 1
  funext r
  split
  · cases r.Payload <;> rfl
  · rfl

/-! ## Get, builders, and the kinds a decode produces -/

theorem GetLoop_collect (num : Int) (m : Message) (acc : List Message) :
    Message.GetLoop num (fun acc v => (acc ++ [v], true)) m acc
      = acc ++ m.filterMap (fun r =>
          if r.Number = num then
            (match r.Payload with
              | Payload.Message s => some s
              | Payload.LenPrefix _ pm => some pm
              | _ => none)
          else none) := by
  induction m generalizing acc with
  | nil => simp [Message.GetLoop]
  | cons r rest ih =>
    unfold Message.GetLoop
    by_cases hn : r.Number = num
    · rw [if_pos hn, List.filterMap_cons, if_pos hn]
      cases hp : r.Payload <;> simp only [ih] <;> simp
    · rw [if_neg hn, ih, List.filterMap_cons, if_neg hn]

/-- C11: for every Message `m` and Number `n`, the full sequence of `m.Get(n)`
is, in record order, for each record numbered `n`: the nested Message if the
payload is a `Message`, the parsed Message `p.Message` if it is a `LenPrefix p`,
and nothing for a `Varint`, `I32`, `I64` or `Bytes` payload; records with other
numbers contribute nothing. -/
theorem C11_get_message (m : Message) (n : Int) :
    (Message.Get m n).toList
      = m.filterMap (fun r =>
          if r.Number = n then
            (match r.Payload with
              | Payload.Message s => some s
              | Payload.LenPrefix _ pMessage => some pMessage
              | Payload.Varint _ => none
              | Payload.I32 _ => none
              | Payload.I64 _ => none
              | Payload.Bytes _ => none)
          else none) := by
  unfold iter.Seq.toList Message.Get
  rw [GetLoop_collect, List.nil_append]
  congr 1
  funext r
  split
  · cases r.Payload <;> rfl
  · rfl

/-- C12: for every Message `m` with records `L`, after `AddVarint`, `AddI32`,
`AddI64` or `AddBytes` of `(n, v)` the records are `L ++ [Record{n, v}]`, and
after `Add(n, f)` they are `L ++ [Record{n, s}]` with `s` what `f` makes of a
fresh empty Message; in every case the first `len(L)` records are the old ones
in order and the length grows by exactly one. -/
theorem C12_builders_only_append (L : Message) (n : Int) (v : Nat) (b : List Byte)
    (f : Message → Message) :
    Message.AddVarint L n v = L ++ [Record.mk n (Payload.Varint v)] ∧
      Message.AddI32 L n v = L ++ [Record.mk n (Payload.I32 v)] ∧
      Message.AddI64 L n v = L ++ [Record.mk n (Payload.I64 v)] ∧
      Message.AddBytes L n b = L ++ [Record.mk n (Payload.Bytes b)] ∧
      Message.Add L n f = L ++ [Record.mk n (Payload.Message (f []))] ∧
      (∀ m' : Message,
        (m' = Message.AddVarint L n v ∨ m' = Message.AddI32 L n v ∨ m' = Message.AddI64 L n v ∨
          m' = Message.AddBytes L n b ∨ m' = Message.Add L n f) →
        m'.take L.length = L ∧ m'.length = L.length + 1) := by
  refine ⟨rfl, rfl, rfl, rfl, rfl, ?_⟩
  intro m' h
  rcases h with h | h | h | h | h <;> subst h <;>
    simp [Message.AddVarint, Message.AddI32, Message.AddI64, Message.AddBytes, Message.Add]

/-- What the speculative helper returns: `Bytes` of its input, or a `LenPrefix`
of its input and of what the input decodes to without error. -/
theorem unmarshal_cases (s : List Byte) (p : Payload) (h : unmarshal s = some p) :
    p = Payload.Bytes s ∨
      ∃ P, p = Payload.LenPrefix s P ∧ Message.Unmarshal [] s = some (P, none) := by
  obtain ⟨⟨M, e⟩, hM⟩ := UnmarshalFuel_total [] s
  by_cases hs : 1 ≤ s.length
  · cases e with
    | none =>
      rw [unmarshal_ok s M hs hM] at h
      cases h
      exact Or.inr ⟨M, rfl, hM⟩
    | some err =>
      rw [unmarshal_err s M err hM] at h
      cases h
      exact Or.inl rfl
  · have hd : s = [] := List.length_eq_zero.mp (by omega)
    subst hd
    rw [unmarshal_nil] at h
    cases h
    exact Or.inl rfl

/-- Whatever the decoder leaves in an empty Message, with or without error, has
no payload of kind `Message` at any depth. -/
theorem Unmarshal_noPlainMessage (B : List Byte) (M : Message) (e : Option Error)
    (h : Message.Unmarshal [] B = some (M, e)) : noPlainMessageList M = true := by
  obtain ⟨n, hn⟩ : ∃ n, B.length = n := ⟨_, rfl⟩
  induction n using Nat.strong_induction_on generalizing B M e with
  | _ n ih =>
    by_cases hd : B.length ≥ 1
    · cases hr : rawRecord B with
      | error err =>
        rw [Unmarshal_error [] B err hd hr] at h
        simp only [Option.some.injEq, Prod.mk.injEq] at h
        obtain ⟨rfl, -⟩ := h
        rfl
      | ok res =>
        obtain ⟨num, raw, rest⟩ := res
        obtain ⟨pre, hsplit, hpl, -, -, -, hval, -, -⟩ := rawRecord_ok B num raw rest hr
        have hlen : B.length = pre.length + rest.length := by
          rw [hsplit, List.length_append]
        obtain ⟨p, recs, e', hp, hrest, hall⟩ := Unmarshal_cons B num raw rest hr
        rw [h] at hall
        simp only [Option.some.injEq, Prod.mk.injEq] at hall
        obtain ⟨rfl, rfl⟩ := hall
        have hrecs := ih rest.length (by omega) rest recs e hrest rfl
        have hpk : Payload.noPlainMessage p = true := by
          cases raw with
          | varint v => cases hp; rfl
          | i32 v => cases hp; rfl
          | i64 v => cases hp; rfl
          | bytes value =>
            have hvl := hval value rfl
            rcases unmarshal_cases value p hp with rfl | ⟨P, rfl, hP⟩
            · rfl
            · simp only [Payload.noPlainMessage]
              exact ih value.length (by omega) value P none hP rfl
        simp only [noPlainMessageList, hpk, hrecs, Bool.and_self]
    · have hd' : B = [] := List.length_eq_zero.mp (by omega)
      subst hd'
      rw [Unmarshal_nil] at h
      simp only [Option.some.injEq, Prod.mk.injEq] at h
      obtain ⟨rfl, -⟩ := h
      rfl

/-- C13: for every byte sequence `B` that `Unmarshal` decodes without error
from an empty Message, every record of the result, at every nesting depth
(inside every `LenPrefix.Message` too), has a payload of kind `Varint`, `I32`,
`I64`, `Bytes` or `LenPrefix`, never of kind `Message`. -/
theorem C13_decode_never_plain_message (B : List Byte) (M : Message)
    (h : Message.Unmarshal [] B = some (M, none)) :
    noPlainMessageList M = true ∧
      ∀ r ∈ M, ∀ s : Message, r.Payload ≠ Payload.Message s := by
  have hM := Unmarshal_noPlainMessage B M none h
  refine ⟨hM, ?_⟩
  clear h
  induction M with
  | nil => intro r hr; cases hr
  | cons r0 rest ih =>
    cases r0 with
    | mk num p =>
      simp only [noPlainMessageList, Bool.and_eq_true] at hM
      intro r hr s hs
      rcases List.mem_cons.mp hr with rfl | hr'
      · simp only [Record.Payload] at hs
        subst hs
        simp [Payload.noPlainMessage] at hM
      · exact ih hM.2 r hr' s hs

/-- C13 at `12 04 0a 02 08 01`: a span inside a span, both classified
`LenPrefix`. -/
theorem C13_decode_never_plain_message_witness :
    Message.Unmarshal [] [0x12, 0x04, 0x0a, 0x02, 0x08, 0x01]
        = some ([Record.mk 2 (Payload.LenPrefix [0x0a, 0x02, 0x08, 0x01]
            [Record.mk 1 (Payload.LenPrefix [0x08, 0x01]
              [Record.mk 1 (Payload.Varint 1)])])], none) ∧
      (noPlainMessageList [Record.mk 2 (Payload.LenPrefix [0x0a, 0x02, 0x08, 0x01]
            [Record.mk 1 (Payload.LenPrefix [0x08, 0x01]
              [Record.mk 1 (Payload.Varint 1)])])] = true ∧
        ∀ r ∈ [Record.mk 2 (Payload.LenPrefix [0x0a, 0x02, 0x08, 0x01]
            [Record.mk 1 (Payload.LenPrefix [0x08, 0x01]
              [Record.mk 1 (Payload.Varint 1)])])],
          ∀ s : Message, r.Payload ≠ Payload.Message s) :=
  ⟨rfl, C13_decode_never_plain_message [0x12, 0x04, 0x0a, 0x02, 0x08, 0x01] _ rfl⟩

/-- C14: `Unmarshal` of the bytes `08 96 01` from an empty Message returns no
error and yields exactly `Message{Record{1, Varint(150)}}`, and `Marshal` of
that Message is exactly `08 96 01`. -/
theorem C14_example_varint :
    Message.Unmarshal [] [0x08, 0x96, 0x01] = some ([Record.mk 1 (Payload.Varint 150)], none) ∧
      Message.Marshal [Record.mk 1 (Payload.Varint 150)] = [0x08, 0x96, 0x01] :=
  ⟨rfl, by decide⟩

/-- C15: `Unmarshal` of the bytes `12 02 08 01` from an empty Message returns no
error and yields exactly
`Message{Record{2, LenPrefix{Bytes: [08 01], Message: Message{Record{1, Varint(1)}}}}}`,
and `Marshal` of that Message is exactly the original four bytes. -/
theorem C15_example_nested :
    Message.Unmarshal [] [0x12, 0x02, 0x08, 0x01]
        = some ([Record.mk 2 (Payload.LenPrefix [0x08, 0x01]
            [Record.mk 1 (Payload.Varint 1)])], none) ∧
      Message.Marshal [Record.mk 2 (Payload.LenPrefix [0x08, 0x01]
        [Record.mk 1 (Payload.Varint 1)])] = [0x12, 0x02, 0x08, 0x01] :=
  ⟨rfl, by decide⟩

/-! ## Early cancellation of the accessors -/

theorem getLoop_run {P σ : Type} (assertP : Payload → Option P) (num : Int)
    (yield : σ → P → σ × Bool) (m : Message) (s : σ) :
    getLoop assertP num yield m s
      = runList yield
          (m.filterMap (fun r => if r.Number = num then assertP r.Payload else none)) s := by
  induction m generalizing s with
  | nil => rfl
  | cons r rest ih =>
    unfold getLoop
    by_cases hn : r.Number = num
    · rw [if_pos hn, List.filterMap_cons, if_pos hn]
      cases hp : assertP r.Payload with
      | none => simp only [ih]
      | some v =>
        simp only [runList]
        rcases hy : yield s v with ⟨s', c⟩
        cases c <;> simp only [ih]
    · rw [if_neg hn, ih, List.filterMap_cons, if_neg hn]

theorem GetLoop_run {σ : Type} (num : Int) (yield : σ → Message → σ × Bool) (m : Message)
    (s : σ) :
    Message.GetLoop num yield m s
      = runList yield
          (m.filterMap (fun r =>
            if r.Number = num then
              (match r.Payload with
                | Payload.Message v => some v
                | Payload.LenPrefix _ pm => some pm
                | _ => none)
            else none)) s := by
  induction m generalizing s with
  | nil => rfl
  | cons r rest ih =>
    unfold Message.GetLoop
    by_cases hn : r.Number = num
    · rw [if_pos hn, List.filterMap_cons, if_pos hn]
      cases hp : r.Payload with
      | Message v =>
        simp only [runList]
        rcases hy : yield s v with ⟨s', c⟩
        cases c <;> simp only [ih]
      | LenPrefix b pm =>
        simp only [runList]
        rcases hy : yield s pm with ⟨s', c⟩
        cases c <;> simp only [ih]
      | _ => simp only [ih]
    · rw [if_neg hn, ih, List.filterMap_cons, if_neg hn]

theorem GetBytesLoop_run {σ : Type} (num : Int) (yield : σ → List Byte → σ × Bool)
    (m : Message) (s : σ) :
    Message.GetBytesLoop num yield m s
      = runList yield
          (m.filterMap (fun r =>
            if r.Number = num then
              (match r.Payload with
                | Payload.Bytes b => some b
                | Payload.LenPrefix b _ => some b
                | _ => none)
            else none)) s := by
  induction m generalizing s with
  | nil => rfl
  | cons r rest ih =>
    unfold Message.GetBytesLoop
    by_cases hn : r.Number = num
    · rw [if_pos hn, List.filterMap_cons, if_pos hn]
      cases hp : r.Payload with
      | Bytes v =>
        simp only [runList]
        rcases hy : yield s v with ⟨s', c⟩
        cases c <;> simp only [ih]
      | LenPrefix b pm =>
        simp only [runList]
        rcases hy : yield s b with ⟨s', c⟩
        cases c <;> simp only [ih]
      | _ => simp only [ih]
    · rw [if_neg hn, ih, List.filterMap_cons, if_neg hn]

theorem runList_collect {V : Type} (l acc : List V) :
    runList (fun acc v => (acc ++ [v], true)) l acc = acc ++ l := by
  induction l generalizing acc with
  | nil => simp [runList]
  | cons v vs ih => simp only [runList, ih]; simp

/-- The recording consumer ends with the values pushed up to its `k`-th
invocation. -/
theorem runList_recorder {V : Type} (k : Nat) (l log : List V) (h : log.length < k) :
    runList (recorder k) l log = log ++ l.take (k - log.length) := by
  induction l generalizing log with
  | nil => simp [runList]
  | cons v vs ih =>
    simp only [runList, recorder]
    by_cases hk : log.length + 1 = k
    · have e : k - log.length = 1 := by omega
      simp [hk, e]
    · have hd : decide (log.length + 1 ≠ k) = true := by simpa using hk
      simp only [hd]
      have := ih (log ++ [v]) (by simp; omega)
      simp only [recorder] at this
      rw [this]
      have e : k - log.length = (k - (log ++ [v]).length) + 1 := by simp; omega
      rw [e, List.take_succ_cons]
      simp

/-- Every sequence that runs a consumer over a list with early exit leaves the
recording consumer with the first `k` values of the list. -/
theorem recordUntil_of_run {V : Type} (q : iter.Seq V) (l : List V)
    (h : ∀ (σ : Type) (yield : σ → V → σ × Bool) (s : σ), q σ yield s = runList yield l s)
    (k : Nat) (hk : 1 ≤ k) :
    q.recordUntil k = q.toList.take k ∧ (q.recordUntil k).length = min k q.toList.length := by
  have hl : q.toList = l := by
    unfold iter.Seq.toList
    rw [h, runList_collect, List.nil_append]
  have hr : q.recordUntil k = l.take k := by
    unfold iter.Seq.recordUntil
    rw [h, runList_recorder k l [] (by simpa using hk)]
    simp
  rw [hl, hr]
  exact ⟨rfl, List.length_take _ _⟩

theorem Get_run {σ : Type} (m : Message) (n : Int) (yield : σ → Message → σ × Bool) (s : σ) :
    (Message.Get m n) σ yield s = runList yield (Message.fullGet m n) s := by
  unfold Message.Get Message.fullGet
  rw [GetLoop_run]
  congr 2
  funext r
  split
  · cases r.Payload <;> rfl
  · rfl

theorem GetBytes_run {σ : Type} (m : Message) (n : Int) (yield : σ → List Byte → σ × Bool)
    (s : σ) :
    (Message.GetBytes m n) σ yield s = runList yield (Message.fullGetBytes m n) s := by
  unfold Message.GetBytes Message.fullGetBytes
  rw [GetBytesLoop_run]
  congr 2
  funext r
  split
  · cases r.Payload <;> rfl
  · rfl

theorem GetVarint_run {σ : Type} (m : Message) (n : Int) (yield : σ → Nat → σ × Bool) (s : σ) :
    (Message.GetVarint m n) σ yield s = runList yield (Message.fullGetVarint m n) s := by
  unfold Message.GetVarint get Message.fullGetVarint
  rw [getLoop_run]
  congr 2
  funext r
  split
  · cases r.Payload <;> rfl
  · rfl

theorem GetI32_run {σ : Type} (m : Message) (n : Int) (yield : σ → Nat → σ × Bool) (s : σ) :
    (Message.GetI32 m n) σ yield s = runList yield (Message.fullGetI32 m n) s := by
  unfold Message.GetI32 get Message.fullGetI32
  rw [getLoop_run]
  congr 2
  funext r
  split
  · cases r.Payload <;> rfl
  · rfl

theorem GetI64_run {σ : Type} (m : Message) (n : Int) (yield : σ → Nat → σ × Bool) (s : σ) :
    (Message.GetI64 m n) σ yield s = runList yield (Message.fullGetI64 m n) s := by
  unfold Message.GetI64 get Message.fullGetI64
  rw [getLoop_run]
  congr 2
  funext r
  split
  · cases r.Payload <;> rfl
  · rfl

/-- A sequence that runs every consumer over the list `l` with early exit has
`l` as its full sequence and leaves the recording consumer with the first `k`
values of `l`. -/
theorem recordUntil_of_list {V : Type} (q : iter.Seq V) (l : List V)
    (h : ∀ (σ : Type) (yield : σ → V → σ × Bool) (s : σ), q σ yield s = runList yield l s)
    (k : Nat) (hk : 1 ≤ k) :
    q.toList = l ∧ q.recordUntil k = l.take k ∧ (q.recordUntil k).length = min k l.length := by
  have hl : q.toList = l := by
    unfold iter.Seq.toList
    rw [h, runList_collect, List.nil_append]
  have hr : q.recordUntil k = l.take k := by
    unfold iter.Seq.recordUntil
    rw [h, runList_recorder k l [] (by simpa using hk)]
    simp
  refine ⟨hl, hr, ?_⟩
  rw [hr]
  exact List.length_take _ _

/-- C16: for every Message `m`, Number `n`, each of `Get`, `GetBytes`,
`GetVarint`, `GetI32`, `GetI64`, and every `k ≥ 1`: the full sequence of the
accessor is the sequence specified for it (the records numbered `n` of a
matching payload kind, in record order), and a consumer whose `yield` returns
`false` on its `k`-th invocation (and `true` on any other) is invoked exactly
`min(k, N)` times, `N` the length of that full sequence, and receives exactly
its first `min(k, N)` elements in order; `yield` is not invoked again after it
returned `false`. -/
theorem C16_early_cancellation (m : Message) (n : Int) (k : Nat) (hk : 1 ≤ k) :
    ((Message.Get m n).toList = Message.fullGet m n ∧
        (Message.Get m n).recordUntil k = (Message.fullGet m n).take k ∧
        ((Message.Get m n).recordUntil k).length = min k (Message.fullGet m n).length) ∧
      ((Message.GetBytes m n).toList = Message.fullGetBytes m n ∧
        (Message.GetBytes m n).recordUntil k = (Message.fullGetBytes m n).take k ∧
        ((Message.GetBytes m n).recordUntil k).length
          = min k (Message.fullGetBytes m n).length) ∧
      ((Message.GetVarint m n).toList = Message.fullGetVarint m n ∧
        (Message.GetVarint m n).recordUntil k = (Message.fullGetVarint m n).take k ∧
        ((Message.GetVarint m n).recordUntil k).length
          = min k (Message.fullGetVarint m n).length) ∧
      ((Message.GetI32 m n).toList = Message.fullGetI32 m n ∧
        (Message.GetI32 m n).recordUntil k = (Message.fullGetI32 m n).take k ∧
        ((Message.GetI32 m n).recordUntil k).length
          = min k (Message.fullGetI32 m n).length) ∧
      ((Message.GetI64 m n).toList = Message.fullGetI64 m n ∧
        (Message.GetI64 m n).recordUntil k = (Message.fullGetI64 m n).take k ∧
        ((Message.GetI64 m n).recordUntil k).length
          = min k (Message.fullGetI64 m n).length) :=
  ⟨recordUntil_of_list _ _ (fun _ yield s => Get_run m n yield s) k hk,
    recordUntil_of_list _ _ (fun _ yield s => GetBytes_run m n yield s) k hk,
    recordUntil_of_list _ _ (fun _ yield s => GetVarint_run m n yield s) k hk,
    recordUntil_of_list _ _ (fun _ yield s => GetI32_run m n yield s) k hk,
    recordUntil_of_list _ _ (fun _ yield s => GetI64_run m n yield s) k hk⟩

/-- C16 on `sampleMessage`, field 5, with a consumer that stops at its second
invocation: the specified sequences and what each accessor has pushed by then
(`GetVarint` has pushed `1, 2` of its `1, 2, 3`), together with what the
accessors push to a consumer that stops at its first invocation. -/
theorem C16_early_cancellation_witness :
    1 ≤ 2 ∧
      (Message.fullGet sampleMessage 5
          = [[Record.mk 1 (Payload.Varint 1)], [Record.mk 2 (Payload.I32 4)]] ∧
        Message.fullGetBytes sampleMessage 5 = [[7], [0x08, 0x01]] ∧
        Message.fullGetVarint sampleMessage 5 = [1, 2, 3] ∧
        Message.fullGetI32 sampleMessage 5 = [6] ∧
        Message.fullGetI64 sampleMessage 5 = [8]) ∧
      ((Message.Get sampleMessage 5).recordUntil 2
          = [[Record.mk 1 (Payload.Varint 1)], [Record.mk 2 (Payload.I32 4)]] ∧
        (Message.GetBytes sampleMessage 5).recordUntil 2 = [[7], [0x08, 0x01]] ∧
        (Message.GetVarint sampleMessage 5).recordUntil 2 = [1, 2] ∧
        (Message.GetI32 sampleMessage 5).recordUntil 2 = [6] ∧
        (Message.GetI64 sampleMessage 5).recordUntil 2 = [8]) ∧
      ((Message.Get sampleMessage 5).recordUntil 1 = [[Record.mk 1 (Payload.Varint 1)]] ∧
        (Message.GetBytes sampleMessage 5).recordUntil 1 = [[7]] ∧
        (Message.GetVarint sampleMessage 5).recordUntil 1 = [1]) ∧
      (((Message.Get sampleMessage 5).toList = Message.fullGet sampleMessage 5 ∧
          (Message.Get sampleMessage 5).recordUntil 2 = (Message.fullGet sampleMessage 5).take 2 ∧
          ((Message.Get sampleMessage 5).recordUntil 2).length
            = min 2 (Message.fullGet sampleMessage 5).length) ∧
        ((Message.GetBytes sampleMessage 5).toList = Message.fullGetBytes sampleMessage 5 ∧
          (Message.GetBytes sampleMessage 5).recordUntil 2
            = (Message.fullGetBytes sampleMessage 5).take 2 ∧
          ((Message.GetBytes sampleMessage 5).recordUntil 2).length
            = min 2 (Message.fullGetBytes sampleMessage 5).length) ∧
        ((Message.GetVarint sampleMessage 5).toList = Message.fullGetVarint sampleMessage 5 ∧
          (Message.GetVarint sampleMessage 5).recordUntil 2
            = (Message.fullGetVarint sampleMessage 5).take 2 ∧
          ((Message.GetVarint sampleMessage 5).recordUntil 2).length
            = min 2 (Message.fullGetVarint sampleMessage 5).length) ∧
        ((Message.GetI32 sampleMessage 5).toList = Message.fullGetI32 sampleMessage 5 ∧
          (Message.GetI32 sampleMessage 5).recordUntil 2
            = (Message.fullGetI32 sampleMessage 5).take 2 ∧
          ((Message.GetI32 sampleMessage 5).recordUntil 2).length
            = min 2 (Message.fullGetI32 sampleMessage 5).length) ∧
        ((Message.GetI64 sampleMessage 5).toList = Message.fullGetI64 sampleMessage 5 ∧
          (Message.GetI64 sampleMessage 5).recordUntil 2
            = (Message.fullGetI64 sampleMessage 5).take 2 ∧
          ((Message.GetI64 sampleMessage 5).recordUntil 2).length
            = min 2 (Message.fullGetI64 sampleMessage 5).length)) :=
  ⟨by decide, ⟨rfl, rfl, rfl, rfl, rfl⟩, ⟨rfl, rfl, rfl, rfl, rfl⟩, ⟨rfl, rfl, rfl⟩,
    C16_early_cancellation sampleMessage 5 2 (by decide)⟩

/-! ## Decode after encode -/

/-- C17: for every byte sequence `B` that `Unmarshal` decodes without error into
`M` (from an empty Message), `Unmarshal(M.Marshal())` from an empty Message
returns no error and yields a Message equal to `M`: same records, field
numbers, payload kinds and values, and for every `LenPrefix` the same raw bytes
and the same parsed Message, at every depth. -/
theorem C17_decoded_tree_fixed_point (B : List Byte) (M : Message)
    (h : Message.Unmarshal [] B = some (M, none)) :
    Message.Unmarshal [] (Message.Marshal M) = some (M, none) :=
  Unmarshal_Marshal_decoded B M h

/-- C17 at the padded input `12 03 08 80 00` (its span holds `08 80 00`). -/
theorem C17_decoded_tree_fixed_point_witness :
    Message.Unmarshal [] [0x12, 0x03, 0x08, 0x80, 0x00]
        = some ([Record.mk 2 (Payload.LenPrefix [0x08, 0x80, 0x00]
            [Record.mk 1 (Payload.Varint 0)])], none) ∧
      Message.Unmarshal [] (Message.Marshal [Record.mk 2 (Payload.LenPrefix [0x08, 0x80, 0x00]
          [Record.mk 1 (Payload.Varint 0)])])
        = some ([Record.mk 2 (Payload.LenPrefix [0x08, 0x80, 0x00]
            [Record.mk 1 (Payload.Varint 0)])], none) :=
  ⟨rfl, C17_decoded_tree_fixed_point [0x12, 0x03, 0x08, 0x80, 0x00] _ rfl⟩

/-- C18: for all byte sequences `B1` and `B2` that each decode without error
(from an empty Message) into `M1` and `M2`, `Unmarshal(B1 ++ B2)` from an empty
Message returns no error and yields exactly the records of `M1` followed by the
records of `M2`. -/
theorem C18_decode_concatenation (B1 B2 : List Byte) (M1 M2 : Message)
    (h1 : Message.Unmarshal [] B1 = some (M1, none))
    (h2 : Message.Unmarshal [] B2 = some (M2, none)) :
    Message.Unmarshal [] (B1 ++ B2) = some (M1 ++ M2, none) := by
  rw [Unmarshal_concat B1 M1 h1 [] B2, List.nil_append]
  exact Unmarshal_append M1 B2 M2 none h2

/-- C18 at `B1 = 08 96 01` and `B2 = 12 02 08 01`. -/
theorem C18_decode_concatenation_witness :
    Message.Unmarshal [] [0x08, 0x96, 0x01] = some ([Record.mk 1 (Payload.Varint 150)], none) ∧
      Message.Unmarshal [] [0x12, 0x02, 0x08, 0x01]
        = some ([Record.mk 2 (Payload.LenPrefix [0x08, 0x01]
            [Record.mk 1 (Payload.Varint 1)])], none) ∧
      Message.Unmarshal [] ([0x08, 0x96, 0x01] ++ [0x12, 0x02, 0x08, 0x01])
        = some ([Record.mk 1 (Payload.Varint 150)]
            ++ [Record.mk 2 (Payload.LenPrefix [0x08, 0x01]
              [Record.mk 1 (Payload.Varint 1)])], none) :=
  ⟨rfl, rfl, C18_decode_concatenation [0x08, 0x96, 0x01] [0x12, 0x02, 0x08, 0x01] _ _ rfl rfl⟩

theorem Append_toRaw (p : Payload) (num : Int) :
    Payload.Append p [] num = (Payload.toRaw p).enc num := by
  cases p with
  | Varint v =>
    simp [Payload.Append, Varint.Append, Payload.toRaw, Raw.enc, Raw.wireType, Raw.encPayload,
      AppendVarint, AppendTag]
  | I32 v =>
    simp [Payload.Append, I32.Append, Payload.toRaw, Raw.enc, Raw.wireType, Raw.encPayload,
      AppendFixed32, AppendTag]
  | I64 v =>
    simp [Payload.Append, I64.Append, Payload.toRaw, Raw.enc, Raw.wireType, Raw.encPayload,
      AppendFixed64, AppendTag]
  | Bytes b =>
    simp [Payload.Append, Bytes.Append, Payload.toRaw, Raw.enc, Raw.wireType, Raw.encPayload,
      AppendBytes, AppendVarint, AppendTag]
  | LenPrefix b m =>
    simp [Payload.Append, LenPrefix.Append, Payload.toRaw, Raw.enc, Raw.wireType,
      Raw.encPayload, AppendBytes, AppendVarint, AppendTag]
  | Message m =>
    simp [Payload.Append, Payload.toRaw, Raw.enc, Raw.wireType, Raw.encPayload, AppendBytes,
      AppendVarint, AppendTag, Message.Marshal]

theorem toRaw_inRange (p : Payload) (h : p.fitsGo) : (Payload.toRaw p).inRange := by
  cases p <;> exact h

/-- C19: for every Message `m` whose top-level records have field numbers in
`1..2^31-1` (and values that fit their Go types), whatever the payload kinds
and whatever the nested content, `Unmarshal(m.Marshal())` from an empty Message
returns no error and yields a Message with the same number of top-level
records and the same field numbers in the same order, whose `Marshal` equals
`m.Marshal()`. -/
theorem C19_built_tree_stable (m : Message)
    (h : ∀ r ∈ m, 1 ≤ r.Number ∧ r.Number ≤ 2 ^ 31 - 1 ∧ r.Payload.fitsGo) :
    ∃ M', Message.Unmarshal [] (Message.Marshal m) = some (M', none) ∧
      M'.length = m.length ∧ M'.map Record.Number = m.map Record.Number ∧
      Message.Marshal M' = Message.Marshal m := by
  induction m with
  | nil => exact ⟨[], Unmarshal_nil [], rfl, rfl, rfl⟩
  | cons r rest ih =>
    cases r with
    | mk num p =>
      obtain ⟨M'', hdec, hl, hnum, hm⟩ := ih (fun r hr => h r (List.mem_cons_of_mem _ hr))
      obtain ⟨h1, h2, hfit⟩ := h (Record.mk num p) (List.mem_cons_self _ _)
      have h1' : (1 : Int) ≤ num := h1
      have h2' : (num : Int) ≤ 2147483647 := by
        have h3 : (num : Int) ≤ 2 ^ 31 - 1 := h2
        norm_num at h3
        exact h3
      have hr := rawRecord_enc num (Payload.toRaw p) h1' h2' (toRaw_inRange p hfit)
        (Message.Marshal rest)
      obtain ⟨p', recs, e, hp', hrest, hall⟩ := Unmarshal_cons _ num _ _ hr
      rw [hdec] at hrest
      simp only [Option.some.injEq, Prod.mk.injEq] at hrest
      obtain ⟨rfl, rfl⟩ := hrest
      refine ⟨Record.mk num p' :: M'', ?_, ?_, ?_, ?_⟩
      · rw [Marshal_cons, Append_toRaw]
        exact hall
      · simp [hl]
      · simp only [List.map_cons, hnum]
        rfl
      · rw [Marshal_cons, Marshal_cons, Append_classifyWith _ _ p' hp' num, Append_toRaw, hm]

/-- C19 on a built Message holding a nested `Message`, a `LenPrefix` whose raw
bytes and parsed Message are unrelated, and a scalar. -/
theorem C19_built_tree_stable_witness :
    (∀ r ∈ ([Record.mk 1 (Payload.Message [Record.mk 1 (Payload.Varint 1)]),
          Record.mk 2 (Payload.LenPrefix [0x80] [Record.mk 9 (Payload.Varint 7)]),
          Record.mk 3 (Payload.Varint 300)] : Message),
        1 ≤ r.Number ∧ r.Number ≤ 2 ^ 31 - 1 ∧ r.Payload.fitsGo) ∧
      ∃ M', Message.Unmarshal []
            (Message.Marshal [Record.mk 1 (Payload.Message [Record.mk 1 (Payload.Varint 1)]),
              Record.mk 2 (Payload.LenPrefix [0x80] [Record.mk 9 (Payload.Varint 7)]),
              Record.mk 3 (Payload.Varint 300)]) = some (M', none) ∧
        M'.length
          = ([Record.mk 1 (Payload.Message [Record.mk 1 (Payload.Varint 1)]),
              Record.mk 2 (Payload.LenPrefix [0x80] [Record.mk 9 (Payload.Varint 7)]),
              Record.mk 3 (Payload.Varint 300)] : Message).length ∧
        M'.map Record.Number
          = ([Record.mk 1 (Payload.Message [Record.mk 1 (Payload.Varint 1)]),
              Record.mk 2 (Payload.LenPrefix [0x80] [Record.mk 9 (Payload.Varint 7)]),
              Record.mk 3 (Payload.Varint 300)] : Message).map Record.Number ∧
        Message.Marshal M'
          = Message.Marshal [Record.mk 1 (Payload.Message [Record.mk 1 (Payload.Varint 1)]),
              Record.mk 2 (Payload.LenPrefix [0x80] [Record.mk 9 (Payload.Varint 7)]),
              Record.mk 3 (Payload.Varint 300)] :=
  have hyp : ∀ r ∈ ([Record.mk 1 (Payload.Message [Record.mk 1 (Payload.Varint 1)]),
          Record.mk 2 (Payload.LenPrefix [0x80] [Record.mk 9 (Payload.Varint 7)]),
          Record.mk 3 (Payload.Varint 300)] : Message),
        1 ≤ r.Number ∧ r.Number ≤ 2 ^ 31 - 1 ∧ r.Payload.fitsGo := by
    intro r hr
    simp only [List.mem_cons, List.mem_singleton, List.not_mem_nil, or_false] at hr
    rcases hr with rfl | rfl | rfl
    · exact ⟨by decide, by decide, show (Message.Marshal _).length < 2 ^ 64 by decide⟩
    · exact ⟨by decide, by decide, show ([(0x80 : Byte)]).length < 2 ^ 64 by decide⟩
    · exact ⟨by decide, by decide, show 300 < 2 ^ 64 by decide⟩
  ⟨hyp, C19_built_tree_stable _ hyp⟩

/-! ## Termination -/

/-- C20: `Unmarshal` returns on every input: with `len(data)` units of fuel the
embedding gives a result, which more fuel does not change. Every loop
iteration that does not return consumes at least the one byte of its tag,
every `size` used in `data[size:]` is at most `len(data)`, and the span handed
to the speculative `unmarshal` is strictly shorter than the buffer it was read
from. -/
theorem C20_unmarshal_terminates (m : Message) (data : List Byte) :
    (∃ r, Message.Unmarshal m data = some r ∧
        ∀ fuel, data.length ≤ fuel → UnmarshalFuel fuel m data = some r) ∧
      (∀ (num : Int) (wt : Nat) (size : Int), ConsumeTag data = (num, wt, size) → 0 ≤ size →
        1 ≤ size ∧ size ≤ data.length) ∧
      (∀ (value : List Byte) (size : Int), ConsumeBytes data = (value, size) → 0 ≤ size →
        size ≤ data.length ∧ value.length < data.length) ∧
      (∀ (v : Nat) (size : Int), ConsumeFixed32 data = (v, size) → 0 ≤ size →
        size ≤ data.length) ∧
      (∀ (v : Nat) (size : Int), ConsumeFixed64 data = (v, size) → 0 ≤ size →
        size ≤ data.length) ∧
      (∀ (v : Nat) (size : Int), ConsumeVarint data = (v, size) → 0 ≤ size →
        size ≤ data.length) ∧
      (∀ (num : Int) (raw : Raw) (rest : List Byte),
        rawRecord data = Except.ok (num, raw, rest) →
        rest.length < data.length ∧
          ∀ value, raw = Raw.bytes value → value.length < data.length) := by
  refine ⟨?_, ?_, ?_, ?_, ?_, ?_, ?_⟩
  · obtain ⟨r, h1, h2⟩ := UnmarshalFuel_stable data.length m data (le_refl _)
    exact ⟨r, h1, h2⟩
  · intro num wt size h hs
    have hv := (ConsumeTag_ok data num wt size h hs).1
    have := ConsumeVarint_ok data _ size hv hs
    exact ⟨this.1, this.2.1⟩
  · intro value size h hs
    obtain ⟨k, -, hk, hsz, hle, -, -, -⟩ := ConsumeBytes_ok data value size h hs
    omega
  · intro v size h hs
    obtain ⟨rfl, hle, -⟩ := ConsumeFixed32_ok data v size h hs
    omega
  · intro v size h hs
    obtain ⟨rfl, hle, -⟩ := ConsumeFixed64_ok data v size h hs
    omega
  · intro v size h hs
    exact (ConsumeVarint_ok data v size h hs).2.1
  · intro num raw rest h
    obtain ⟨pre, hsplit, hpl, -, -, -, hval, -, -⟩ := rawRecord_ok data num raw rest h
    have hlen : data.length = pre.length + rest.length := by
      rw [hsplit, List.length_append]
    refine ⟨by omega, fun value hv => ?_⟩
    have := hval value hv
    omega

end Protobuf
